/-
Verification of the course-eligibility engine (`eligibility_check.py`).

The Python source is shallowly embedded below.  Strings are modelled as
`List Char` in the worker functions (with `String` wrappers mirroring the
Python signatures); Python dicts are modelled as insertion-ordered
association lists `List (String × _)`; Python sets that the source iterates
over are modelled as insertion-ordered duplicate-free lists, a documented
deterministic refinement of CPython's unspecified set iteration order.
Regular-expression operations of the source are compiled by hand into
equivalent scanning functions (leftmost match, greedy quantifiers), as
noted at each definition.
-/
import Mathlib

set_option linter.unusedVariables false
set_option linter.unnecessarySimpa false
set_option maxRecDepth 4096

/-! ## Basic character classes (Python `\s`, `\w`, `[A-Z]`, `\d`) -/

/-- Python regex `\s` / `str.strip()` whitespace (ASCII range, which is all
the catalogue data contains). -/
def pyIsSpace (c : Char) : Bool :=
  c == ' ' || c == '\t' || c == '\n' || c == '\r' || c == '\x0b' || c == '\x0c'

/-- Python regex `\w`: letters, digits, underscore (ASCII). -/
def isWordChar (c : Char) : Bool :=
  c.isAlpha || c.isDigit || c == '_'

/-- Regex class `[A-Z]`. -/
def isUpperAZ (c : Char) : Bool :=
  'A' ≤ c && c ≤ 'Z'

/-- Regex class `\d`. -/
def isDigitCh (c : Char) : Bool :=
  c.isDigit

/-! ## `str.strip` and whitespace collapsing -/

/-- `str.strip()`: drop leading and trailing whitespace. -/
def pyStripL (l : List Char) : List Char :=
  ((l.dropWhile pyIsSpace).reverse.dropWhile pyIsSpace).reverse

def pyStrip (s : String) : String :=
  ⟨pyStripL s.toList⟩

/-- `p.strip(' .;')`: drop leading and trailing characters from that set. -/
def stripPunctL (l : List Char) : List Char :=
  let p : Char → Bool := fun c => c == ' ' || c == '.' || c == ';'
  ((l.dropWhile p).reverse.dropWhile p).reverse

/-- `re.sub(r'\s+', ' ', ·)`: replace every maximal whitespace run by a
single space.  The flag records whether the previous character was
whitespace (i.e. whether we are inside a run). -/
def collapseWsAux : Bool → List Char → List Char
  | _, [] => []
  | prevWs, c :: cs =>
      if pyIsSpace c then
        if prevWs then collapseWsAux true cs else ' ' :: collapseWsAux true cs
      else c :: collapseWsAux false cs

def collapseWs (l : List Char) : List Char :=
  collapseWsAux false l

/-! ## `normalize_course_code` -/

/-- `normalize_course_code` on the character-list level:
`re.sub(r'\s+', ' ', s.strip()).upper()`. -/
def normList (l : List Char) : List Char :=
  (collapseWs (pyStripL l)).map Char.toUpper

/-- `normalize_course_code(s)` from `eligibility_check.py`. -/
def normalize_course_code (s : String) : String :=
  ⟨normList s.toList⟩

/-! ## Whitespace tokens (specification-side helper for claim C9)

`wsTokensAux acc l` splits `l` into its maximal whitespace-free runs;
`acc` is the (reversed) run currently being read.  Two strings are
"variants differing only in letter case and whitespace runs" precisely
when their upper-cased token lists agree. -/

def wsTokensAux : List Char → List Char → List (List Char)
  | acc, [] => if acc.isEmpty then [] else [acc.reverse]
  | acc, c :: cs =>
      if pyIsSpace c then
        if acc.isEmpty then wsTokensAux [] cs else acc.reverse :: wsTokensAux [] cs
      else wsTokensAux (c :: acc) cs

/-- The whitespace-separated tokens of a string, upper-cased. -/
def tokensUpper (s : String) : List (List Char) :=
  (wsTokensAux [] s.toList).map (List.map Char.toUpper)

/-! ## Case-insensitive literal matching and `\bconsent of\b` -/

/-- Case-insensitive "starts with" for a literal pattern (regex with
`re.I`). -/
def startsWithCI : List Char → List Char → Bool
  | [], _ => true
  | _ :: _, [] => false
  | p :: ps, c :: cs => (c.toLower == p.toLower) && startsWithCI ps cs

/-- The literal of `r'\bconsent of\b'`. -/
def consentPat : List Char := "consent of".toList

/-- Word boundary after a match ending in a word character: the next
character (if any) must not be a word character. -/
def boundaryAfter : List Char → Bool
  | [] => true
  | d :: _ => !isWordChar d

/-- Scan for the first occurrence of `\bconsent of\b` (case-insensitive).
`prevW` records whether the preceding character is a word character (the
`\b` on the left).  Returns `some prefixBeforeMatch` on a hit, `none`
otherwise.  This realises both `re.search(r'\bconsent of\b', ·, re.I)`
(via `Option.isSome`) and `re.split(r'\bconsent of\b', ·, re.I)[0]`
(via `Option.getD` with the whole string). -/
def consentFind : Bool → List Char → Option (List Char)
  | _, [] => none
  | prevW, c :: cs =>
      if !prevW && startsWithCI consentPat (c :: cs)
          && boundaryAfter ((c :: cs).drop consentPat.length) then
        some []
      else
        match consentFind (isWordChar c) cs with
        | some pre => some (c :: pre)
        | none => none

/-! ## `str.replace` (case-sensitive, non-overlapping, left-to-right)

Fuel-indexed so that the definition is structurally recursive and hence
kernel-computable; fuel is initialised with the string length, which the
scan can never exhaust (each step consumes at least one character). -/

def replaceAllAux (pat repl : List Char) : Nat → List Char → List Char
  | _, [] => []
  | 0, l => l
  | fuel + 1, c :: cs =>
      if pat ≠ [] && pat.isPrefixOf (c :: cs) then
        repl ++ replaceAllAux pat repl fuel ((c :: cs).drop pat.length)
      else
        c :: replaceAllAux pat repl fuel cs

def replaceAll (pat repl l : List Char) : List Char :=
  replaceAllAux pat repl l.length l

/-! ## Keyword split: `re.split(r'\s+\band\b\s+', ·, re.I)` and the same
with `or`.

Since the keyword starts and ends with a letter, the two `\b` are implied
by the surrounding `\s+`; the match is: a maximal whitespace run, the
keyword (case-insensitively), and at least one following whitespace
character (the trailing `\s+` then greedily eats the rest of that run).
Left-to-right scan, as `re.split` does.  Fuel-indexed as above. -/

def splitKwAux (kw : List Char) : Nat → List Char → List Char → List (List Char)
  | _, acc, [] => [acc.reverse]
  | 0, acc, rest => [acc.reverse ++ rest]
  | fuel + 1, acc, c :: cs =>
      if pyIsSpace c then
        let rest := (c :: cs).dropWhile pyIsSpace
        let after := rest.drop kw.length
        if startsWithCI kw rest &&
            (match after with | [] => false | d :: _ => pyIsSpace d) then
          acc.reverse :: splitKwAux kw fuel [] (after.dropWhile pyIsSpace)
        else
          splitKwAux kw fuel (c :: acc) cs
      else splitKwAux kw fuel (c :: acc) cs

def splitKw (kw l : List Char) : List (List Char) :=
  splitKwAux kw l.length [] l

/-! ## Comma/semicolon split: `re.split(r'\s*,\s*|\s*;\s*', ·)`

A match is: a (possibly empty) whitespace run, a `,` or `;`, and the
following whitespace run.  Left-to-right scan; fuel-indexed. -/

def splitCommaAux : Nat → List Char → List Char → List (List Char)
  | _, acc, [] => [acc.reverse]
  | 0, acc, rest => [acc.reverse ++ rest]
  | fuel + 1, acc, c :: cs =>
      match (c :: cs).dropWhile pyIsSpace with
      | d :: ds =>
          if d == ',' || d == ';' then
            acc.reverse :: splitCommaAux fuel [] (ds.dropWhile pyIsSpace)
          else splitCommaAux fuel (c :: acc) cs
      | [] => splitCommaAux fuel (c :: acc) cs

def splitComma (l : List Char) : List (List Char) :=
  splitCommaAux l.length [] l

/-! ## The course-code pattern

`re.search(r'([A-Z]{2,5}\s*\d{2,4}[A-Z]?)', ·)`: leftmost match with
backtracking semantics.  At a given start position the letter block can
only succeed by taking the entire maximal `[A-Z]` run (a shorter take
leaves a letter where `\s*\d` must match), so the run length must be
between 2 and 5; `\s*` then takes the maximal whitespace run; the digit
block takes `min 4` of the maximal digit run, which must have length at
least 2; the optional suffix letter is taken greedily, and is only
reachable when the digit run was not truncated. -/

def codeMatchAt (l : List Char) : Option (List Char) :=
  let letters := l.takeWhile isUpperAZ
  if 2 ≤ letters.length && letters.length ≤ 5 then
    let rest1 := l.drop letters.length
    let sps := rest1.takeWhile pyIsSpace
    let rest2 := rest1.drop sps.length
    let digits := rest2.takeWhile isDigitCh
    if 2 ≤ digits.length then
      let dtake := min 4 digits.length
      let rest3 := rest2.drop dtake
      let suffix :=
        if dtake == digits.length then
          match rest3 with
          | c :: _ => if isUpperAZ c then [c] else []
          | [] => []
        else []
      some (letters ++ sps ++ digits.take dtake ++ suffix)
    else none
  else none

/-- Leftmost search for the course-code pattern. -/
def searchCode : List Char → Option (List Char)
  | [] => none
  | c :: cs =>
      match codeMatchAt (c :: cs) with
      | some m => some m
      | none => searchCode cs

/-- `re.match(r'^[A-Z]{2,5}\s*\d{2,4}[A-Z]?$', ·)` as a Bool: the whole
string is letters (2–5), whitespace, digits (2–4), and an optional single
trailing letter.  A digit run longer than 4 cannot match (any allowed
take leaves a digit before `$`). -/
def fullCodeMatch (l : List Char) : Bool :=
  let letters := l.takeWhile isUpperAZ
  if 2 ≤ letters.length && letters.length ≤ 5 then
    let rest1 := l.drop letters.length
    let sps := rest1.takeWhile pyIsSpace
    let rest2 := rest1.drop sps.length
    let digits := rest2.takeWhile isDigitCh
    if 2 ≤ digits.length && digits.length ≤ 4 then
      match rest2.drop digits.length with
      | [] => true
      | [c] => isUpperAZ c
      | _ => false
    else false
  else false

/-! ## `extract_alternatives` -/

/-- `re.sub(r'^\s*one of\s*[:\-]?\s*', '', p, re.I)`: strip a leading
"one of" marker.  The pattern only matches when the literal `one of`
is present, so otherwise the string is unchanged. -/
def stripOneOf (l : List Char) : List Char :=
  let l1 := l.dropWhile pyIsSpace
  if startsWithCI "one of".toList l1 then
    let l2 := (l1.drop 6).dropWhile pyIsSpace
    let l3 := match l2 with
      | ':' :: r => r
      | '-' :: r => r
      | _ => l2
    l3.dropWhile pyIsSpace
  else l

/-- One sub-token of a piece: try the search pattern, else the
stripped-and-filtered fallback pattern; non-matching tokens are dropped. -/
def subTokenCode (s0 : List Char) : Option String :=
  let s := pyStripL s0
  if s.isEmpty then none
  else
    match searchCode (s.map Char.toUpper) with
    | some m => some (normalize_course_code ⟨m⟩)
    | none =>
        let token := pyStripL ((s.map Char.toUpper).filter
          (fun c => isUpperAZ c || isDigitCh c || c == ' '))
        if fullCodeMatch token then some (normalize_course_code ⟨token⟩)
        else none

/-- Order-preserving de-duplication (`seen` set loop of the source). -/
def dedupStr : List String → List String → List String
  | _, [] => []
  | seen, c :: cs =>
      if c ∈ seen then dedupStr seen cs else c :: dedupStr (c :: seen) cs

/-- `extract_alternatives(piece)` from `eligibility_check.py`. -/
def extract_alternatives (piece : List Char) : List String :=
  let p := stripOneOf piece
  let alt := splitKw "or".toList p
  let candidates := alt.flatMap (fun a =>
    let a' := a.map (fun c => if c == '/' then ',' else c)
    (splitComma a').filterMap subTokenCode)
  dedupStr [] candidates

/-! ## `split_top_level_and_groups` and `parse_prereq_line` -/

/-- `split_top_level_and_groups(text)` from `eligibility_check.py`.
The source's second replacement, `.replace('one of', 'one of')`, replaces
a literal with itself and is omitted as the identity. -/
def split_top_level_and_groups (text : List Char) : List (List Char) :=
  let t := pyStripL text
  let t := (consentFind false t).getD t
  let t := replaceAll "one of:".toList "one of".toList t
  let t := collapseWs t
  let parts := splitKw "and".toList t
  parts.filterMap (fun p =>
    if (pyStripL p).isEmpty then none else some (stripPunctL p))

/-- Lines 86–98 of the source: requirement groups from the (stripped)
free text to the right of the colon. -/
def parse_req_groups (req_text : List Char) : List (List String) :=
  if (consentFind false req_text).isSome || req_text.isEmpty then []
  else
    ((split_top_level_and_groups req_text).map extract_alternatives).filter
      (· ≠ [])

/-- Text after the first `:` of the line (`line.split(':', 1)[1]`). -/
def afterColon (line : String) : List Char :=
  (line.toList.dropWhile (· ≠ ':')).drop 1

/-- `parse_prereq_line(line)` from `eligibility_check.py`; the course is
`none` exactly when the line has no `:` separator. -/
def parse_prereq_line (line : String) : Option String × List (List String) :=
  if ':' ∈ line.toList then
    let left := line.toList.takeWhile (· ≠ ':')
    (some (normalize_course_code ⟨left⟩),
      parse_req_groups (pyStripL (afterColon line)))
  else (none, [])

/-! ## Requirement store and `load_and_parse`

A Python dict is an insertion-ordered association list with unique keys;
`List.lookup` returns the first (hence only) binding. -/

abbrev Store := List (String × List (List String))

/-- Keys of an association list. -/
def keysOf {α : Type} (m : List (String × α)) : List String :=
  m.map Prod.fst

/-- Apply `f` to the value stored under `k` (all bindings of `k`, of which
a dict has at most one). -/
def updKey {α : Type} (m : List (String × α)) (k : String) (f : α → α) :
    List (String × α) :=
  m.map (fun p => if p.1 == k then (p.1, f p.2) else p)

/-- `parsed[course].extend(reqs)` resp. `parsed.setdefault(course, []).extend(reqs)`:
append to the existing binding, or insert a fresh one. -/
def storeExtend (m : Store) (k : String) (v : List (List String)) : Store :=
  if (m.lookup k).isSome then updKey m k (· ++ v) else m ++ [(k, v)]

/-- The loop body of `load_and_parse` for a single raw line. -/
def recordLine (parsed : Store) (raw : String) : Store :=
  let line := pyStrip raw
  if line == "" then parsed
  else if ':' ∉ line.toList then parsed
  else
    match parse_prereq_line line with
    | (none, _) => parsed
    | (some course, reqs) =>
        if course == "" then parsed
        else if (parsed.lookup course).isSome && reqs ≠ [] then
          storeExtend parsed course reqs
        else
          -- `setdefault(course, []).extend(reqs)`: same append-or-insert
          storeExtend parsed course reqs

/-- `load_and_parse` over the already-read lines of the file (file I/O is
boundary glue outside the core). -/
def load_and_parse (lines : List String) : Store :=
  lines.foldl recordLine []

/-! ## Eligibility evaluator -/

/-- `is_requirement_satisfied(group, completed)`. -/
def is_requirement_satisfied (group : List String) (completed : List String) :
    Bool :=
  group.any (fun alt => completed.contains alt)

/-- `course_is_eligible(course, req_groups, completed)`. -/
def course_is_eligible (course : String) (req_groups : List (List String))
    (completed : List String) : Bool :=
  if req_groups.isEmpty then true
  else req_groups.all (fun g => is_requirement_satisfied g completed)

/-- `eligible_courses(parsed_reqs, completed_courses)`; the returned
Python set is modelled by the (duplicate-free, given unique store keys)
list of its elements. -/
def eligible_courses (parsed_reqs : Store) (completed_courses : List String) :
    List String :=
  parsed_reqs.filterMap (fun p =>
    if completed_courses.contains p.1 then none
    else if course_is_eligible p.1 p.2 completed_courses then some p.1
    else none)

/-! ## Dependency-graph builder -/

abbrev Adj := List (String × List String)
abbrev Indeg := List (String × Int)

/-- `set.add`: insertion-ordered, duplicate-free. -/
def addCourse (l : List String) (c : String) : List String :=
  if c ∈ l then l else l ++ [c]

/-- `if course not in adj[prereq]: adj[prereq].add(course)` on a
`defaultdict(set)`: touching a missing key creates an empty entry. -/
def adjAdd (adj : Adj) (prereq course : String) : Adj :=
  match adj.lookup prereq with
  | some nbrs =>
      if course ∈ nbrs then adj else updKey adj prereq (· ++ [course])
  | none => adj ++ [(prereq, [course])]

/-- `indeg[v] += 1` on a `defaultdict(int)`. -/
def incKey (m : Indeg) (k : String) : Indeg :=
  if (m.lookup k).isSome then updKey m k (· + 1) else m ++ [(k, 1)]

/-- Inner loop of `build_graph` over one requirement group. -/
def buildGroup (course : String) : List String → Adj × List String →
    Adj × List String
  | [], st => st
  | prereq :: rest, (adj, all) =>
      buildGroup course rest (adjAdd adj prereq course, addCourse all prereq)

/-- Loop of `build_graph` over the requirement groups of one course. -/
def buildGroups (course : String) : List (List String) → Adj × List String →
    Adj × List String
  | [], st => st
  | g :: gs, st => buildGroups course gs (buildGroup course g st)

/-- Main loop of `build_graph` over the store items. -/
def buildAdjAll : Store → Adj × List String → Adj × List String
  | [], st => st
  | (course, groups) :: ps, (adj, all) =>
      buildAdjAll ps (buildGroups course groups (adj, addCourse all course))

/-- `for node in all_courses: indeg[node] = 0`. -/
def zeroIndeg (all : List String) : Indeg :=
  all.map (fun n => (n, (0 : Int)))

/-- `for u, neighbors in adj.items(): for v in neighbors: indeg[v] += 1`. -/
def addIndegrees (adj : Adj) (m : Indeg) : Indeg :=
  adj.foldl (fun m p => p.2.foldl incKey m) m

/-- `build_graph(parsed_reqs)` from `eligibility_check.py`. -/
def build_graph (parsed_reqs : Store) : Adj × Indeg :=
  let all0 := parsed_reqs.foldl (fun acc p => addCourse acc p.1) []
  let st := buildAdjAll parsed_reqs ([], all0)
  (st.1, addIndegrees st.1 (zeroIndeg st.2))

/-- Number of adjacency entries whose neighbour set contains `v`, i.e. the
number of distinct sources of edges into `v` (adjacency keys are unique
and neighbour lists duplicate-free for graphs built by `build_graph`). -/
def countIn (adj : Adj) (v : String) : Int :=
  ((adj.filter (fun p => p.2.contains v)).length : Int)

/-! ## Kahn's algorithm -/

/-- `indeg_copy[v] -= 1` on the copied `defaultdict(int)`: decrement,
creating a missing key at `0 - 1`. -/
def decKey (m : Indeg) (k : String) : Indeg :=
  if (m.lookup k).isSome then updKey m k (· - 1) else m ++ [(k, -1)]

/-- `for v in adj.get(u, []): indeg_copy[v] -= 1; if indeg_copy[v]==0:
q.append(v)`. -/
def processDeps : List String → Indeg → List String → Indeg × List String
  | [], cnt, q => (cnt, q)
  | v :: vs, cnt, q =>
      let cnt' := decKey cnt v
      processDeps vs cnt' (if cnt'.lookup v == some 0 then q ++ [v] else q)

/-- The `while q` loop.  `order` is accumulated in reverse.  Fuel-indexed
to stay structurally recursive; each iteration appends one element of the
(finite, duplicate-free) key set to the order, so the initial fuel
`indeg.length + 1` is never exhausted for a genuine dict (unique keys). -/
def kahnLoop (adj : Adj) : Nat → List String → Indeg → List String →
    List String
  | _, [], _, order => order.reverse
  | 0, _ :: _, _, order => order.reverse
  | fuel + 1, u :: q, cnt, order =>
      let pr := processDeps ((adj.lookup u).getD []) cnt q
      kahnLoop adj fuel pr.2 pr.1 (u :: order)

/-- `kahn_topological_sort(adj, indeg)` from `eligibility_check.py`. -/
def kahn_topological_sort (adj : Adj) (indeg : Indeg) :
    List String × Bool :=
  let q0 := (indeg.filter (fun p => p.2 == 0)).map Prod.fst
  let order := kahnLoop adj (indeg.length + 1) q0 indeg []
  (order, order.length != indeg.length)

/-! ## State-threaded variant for the frame claim

Every dict operation the source performs is threaded explicitly: `adj` is
only read (`adj.get(u, [])` does not insert, even on a `defaultdict`),
`indeg` is read (`items`, `len`) and copied, and all decrements go to the
copy `cnt`.  The function returns the final values of the two input
dicts alongside the result. -/

def kahnLoopST : Nat → List String → Adj → Indeg → Indeg → List String →
    List String × Adj × Indeg
  | _, [], adj, _, indeg, order => (order.reverse, adj, indeg)
  | 0, _ :: _, adj, _, indeg, order => (order.reverse, adj, indeg)
  | fuel + 1, u :: q, adj, cnt, indeg, order =>
      let pr := processDeps ((adj.lookup u).getD []) cnt q
      kahnLoopST fuel pr.2 adj pr.1 indeg (u :: order)

def kahn_topological_sort_st (adj : Adj) (indeg : Indeg) :
    (List String × Bool) × Adj × Indeg :=
  let q0 := (indeg.filter (fun p => p.2 == 0)).map Prod.fst
  let cnt0 := indeg
  let r := kahnLoopST (indeg.length + 1) q0 adj cnt0 indeg []
  ((r.1, r.1.length != r.2.2.length), r.2.1, r.2.2)

/-! ## Association-list lemmas -/

theorem lookup_cons {α : Type} (a k : String) (v : α) (ps : List (String × α)) :
    ((a, v) :: ps).lookup k = if k = a then some v else ps.lookup k := by
  by_cases h : k = a
  · subst h; simp [List.lookup]
  · simp [List.lookup, h, beq_false_of_ne h]

theorem lookup_isSome_iff {α : Type} (m : List (String × α)) (k : String) :
    (m.lookup k).isSome = true ↔ k ∈ keysOf m := by
  induction m with
  | nil => simp [keysOf, List.lookup]
  | cons p ps ih =>
      obtain ⟨a, v⟩ := p
      rw [lookup_cons]
      by_cases h : k = a
      · subst h; simp [keysOf]
      · simpa [keysOf, h] using ih

theorem lookup_mem {α : Type} {m : List (String × α)} {k : String} {v : α}
    (h : m.lookup k = some v) : (k, v) ∈ m := by
  induction m with
  | nil => simp [List.lookup] at h
  | cons p ps ih =>
      obtain ⟨a, w⟩ := p
      rw [lookup_cons] at h
      by_cases hk : k = a
      · subst hk; simp at h; subst h; exact List.mem_cons_self _ _
      · simp [hk] at h; exact List.mem_cons_of_mem _ (ih h)

theorem lookup_of_mem_nodup {α : Type} {m : List (String × α)} {k : String}
    {v : α} (hnd : (keysOf m).Nodup) (h : (k, v) ∈ m) :
    m.lookup k = some v := by
  induction m with
  | nil => simp at h
  | cons p ps ih =>
      obtain ⟨a, w⟩ := p
      simp [keysOf] at hnd
      rw [lookup_cons]
      rcases List.mem_cons.mp h with h1 | h1
      · rw [Prod.mk.injEq] at h1
        obtain ⟨rfl, rfl⟩ := h1
        simp
      · have hka : k ≠ a := by
          rintro rfl
          exact hnd.1 v h1
        rw [if_neg hka]
        exact ih hnd.2 h1

theorem mem_keysOf_of_mem {α : Type} {m : List (String × α)} {p : String × α}
    (h : p ∈ m) : p.1 ∈ keysOf m :=
  List.mem_map_of_mem Prod.fst h

theorem keysOf_updKey {α : Type} (m : List (String × α)) (k : String)
    (f : α → α) : keysOf (updKey m k f) = keysOf m := by
  induction m with
  | nil => rfl
  | cons p ps ih =>
      obtain ⟨a, v⟩ := p
      by_cases h : a = k <;> simp [updKey, keysOf, h] at * <;>
        simpa [updKey, keysOf] using ih

theorem updKey_cons {α : Type} (p : String × α) (ps : List (String × α))
    (k : String) (f : α → α) :
    updKey (p :: ps) k f = (if p.1 == k then (p.1, f p.2) else p) :: updKey ps k f := rfl

theorem lookup_updKey_self {α : Type} (m : List (String × α)) (k : String)
    (f : α → α) : (updKey m k f).lookup k = (m.lookup k).map f := by
  induction m with
  | nil => simp [updKey, List.lookup]
  | cons p ps ih =>
      obtain ⟨a, v⟩ := p
      rw [updKey_cons]
      by_cases h : k = a
      · subst h
        simp [lookup_cons]
      · have hb : (a == k) = false := beq_false_of_ne (Ne.symm h)
        simp [hb, lookup_cons, h, ih]

theorem lookup_updKey_ne {α : Type} (m : List (String × α)) {k k' : String}
    (f : α → α) (h : k' ≠ k) : (updKey m k f).lookup k' = m.lookup k' := by
  induction m with
  | nil => simp [updKey]
  | cons p ps ih =>
      obtain ⟨a, v⟩ := p
      rw [updKey_cons]
      by_cases ha : a = k
      · subst ha
        simp [lookup_cons, ih, h]
      · have hb : (a == k) = false := beq_false_of_ne ha
        simp [hb, lookup_cons, ih]

theorem lookup_append_right_self {α : Type} {m : List (String × α)}
    {k : String} (v : α) (h : m.lookup k = none) :
    (m ++ [(k, v)]).lookup k = some v := by
  induction m with
  | nil => simp [lookup_cons]
  | cons p ps ih =>
      obtain ⟨a, w⟩ := p
      rw [lookup_cons] at h
      by_cases hk : k = a
      · rw [if_pos hk] at h; exact absurd h (by simp)
      · rw [if_neg hk] at h
        rw [List.cons_append, lookup_cons, if_neg hk]
        exact ih h

theorem lookup_append_single_ne {α : Type} (m : List (String × α))
    {k k' : String} (v : α) (h : k' ≠ k) :
    (m ++ [(k, v)]).lookup k' = m.lookup k' := by
  induction m with
  | nil => simp [lookup_cons, h]
  | cons p ps ih =>
      obtain ⟨a, w⟩ := p
      by_cases hk : k' = a
      · simp [List.cons_append, lookup_cons, hk]
      · simp [List.cons_append, lookup_cons, hk, ih]

theorem keysOf_append_single {α : Type} (m : List (String × α)) (k : String)
    (v : α) : keysOf (m ++ [(k, v)]) = keysOf m ++ [k] := by
  simp [keysOf]

/-! ## Lemmas about `decKey` and `processDeps` -/

theorem lookup_decKey_self (m : Indeg) (k : String) :
    (decKey m k).lookup k = some ((m.lookup k).getD 0 - 1) := by
  unfold decKey
  cases h : (m.lookup k) with
  | some v => simp [h, lookup_updKey_self]
  | none =>
      simp [h]
      exact lookup_append_right_self _ h

theorem lookup_decKey_ne (m : Indeg) {k k' : String} (h : k' ≠ k) :
    (decKey m k).lookup k' = m.lookup k' := by
  unfold decKey
  by_cases hs : (m.lookup k).isSome
  · simp [hs, lookup_updKey_ne _ _ h]
  · simp [hs, lookup_append_single_ne _ _ h]

/-- Values never increase under `decKey`. -/
theorem decKey_le {m : Indeg} {k w : String} {y x : Int}
    (h1 : m.lookup w = some y) (h2 : (decKey m k).lookup w = some x) :
    x ≤ y := by
  by_cases hk : w = k
  · subst hk
    rw [lookup_decKey_self, h1] at h2
    simp at h2
    omega
  · rw [lookup_decKey_ne _ hk, h1] at h2
    simp at h2
    omega

/-- A key absent from `m` can only be created negative by `decKey`. -/
theorem decKey_lt_zero {m : Indeg} {k w : String} {x : Int}
    (h1 : m.lookup w = none) (h2 : (decKey m k).lookup w = some x) :
    x < 0 := by
  by_cases hk : w = k
  · subst hk
    rw [lookup_decKey_self, h1] at h2
    simp at h2
    omega
  · rw [lookup_decKey_ne _ hk, h1] at h2
    exact absurd h2 (by simp)

/-! ## Kahn loop invariant (for the cycle-flag characterisation)

`K` is the key set of the original indegree dict, `cnt` the working copy,
`pool` the processed nodes together with the queue.  Every pooled node is
a `K`-node whose counter has already reached zero (and can only fall
further); keys invented by `defaultdict` misses stay negative, so a
counter can hit exactly zero at most once and no node is ever pooled
twice. -/

structure KahnInv (K : List String) (cnt : Indeg) (pool : List String) :
    Prop where
  nodup : pool.Nodup
  inK : ∀ v ∈ pool, v ∈ K
  nonpos : ∀ v ∈ pool, ∀ x, cnt.lookup v = some x → x ≤ 0
  total : ∀ k ∈ K, (cnt.lookup k).isSome = true
  freshNeg : ∀ k x, cnt.lookup k = some x → k ∉ K → x < 0

theorem KahnInv.perm {K : List String} {cnt : Indeg} {pool pool' : List String}
    (hp : pool.Perm pool') (h : KahnInv K cnt pool) : KahnInv K cnt pool' where
  nodup := hp.nodup h.nodup
  inK := fun v hv => h.inK v (hp.mem_iff.mpr hv)
  nonpos := fun v hv => h.nonpos v (hp.mem_iff.mpr hv)
  total := h.total
  freshNeg := h.freshNeg

theorem kahnInv_step {K : List String} {cnt : Indeg} {o q : List String}
    (v : String) (h : KahnInv K cnt (o ++ q)) :
    KahnInv K (decKey cnt v)
      (o ++ (if (decKey cnt v).lookup v == some 0 then q ++ [v] else q)) := by
  have htotal : ∀ k ∈ K, ((decKey cnt v).lookup k).isSome = true := by
    intro k hk
    by_cases hkv : k = v
    · subst hkv; rw [lookup_decKey_self]; rfl
    · rw [lookup_decKey_ne _ hkv]; exact h.total k hk
  by_cases henq : (decKey cnt v).lookup v == some 0
  · -- the counter of `v` has just reached zero: `v` is enqueued
    have hv0 : (decKey cnt v).lookup v = some 0 := by
      exact eq_of_beq henq
    have hv1 : cnt.lookup v = some 1 := by
      rw [lookup_decKey_self] at hv0
      cases hl : cnt.lookup v with
      | none => rw [hl] at hv0; simp at hv0
      | some y =>
          rw [hl] at hv0
          simp at hv0 ⊢
          omega
    have hvpool : v ∉ o ++ q := fun hmem => by
      have := h.nonpos v hmem 1 hv1
      omega
    have hvK : v ∈ K := by
      by_contra hno
      have := h.freshNeg v 1 hv1 hno
      omega
    rw [if_pos henq]
    refine ⟨?_, ?_, ?_, htotal, ?_⟩
    · rw [← List.append_assoc]
      refine List.nodup_append.mpr ⟨h.nodup, List.nodup_singleton v, ?_⟩
      intro w hw hw'
      simp at hw'
      subst hw'
      exact hvpool hw
    · intro w hw
      rw [← List.append_assoc] at hw
      rcases List.mem_append.mp hw with hw | hw
      · exact h.inK w hw
      · simp at hw; subst hw; exact hvK
    · intro w hw x hx
      rw [← List.append_assoc] at hw
      rcases List.mem_append.mp hw with hw | hw
      · have hwv : w ≠ v := fun he => hvpool (he ▸ hw)
        rw [lookup_decKey_ne _ hwv] at hx
        exact h.nonpos w hw x hx
      · simp at hw
        subst hw
        rw [hv0] at hx
        obtain rfl : (0 : Int) = x := by simpa using hx
        omega
    · intro k x hx hk
      by_cases hkv : k = v
      · subst hkv; exact absurd hvK hk
      · rw [lookup_decKey_ne _ hkv] at hx
        exact h.freshNeg k x hx hk
  · rw [if_neg henq]
    refine ⟨h.nodup, h.inK, ?_, htotal, ?_⟩
    · intro w hw x hx
      cases hl : cnt.lookup w with
      | some y =>
          have := h.nonpos w hw y hl
          have := decKey_le hl hx
          omega
      | none =>
          have := h.total w (h.inK w hw)
          rw [hl] at this
          simp at this
    · intro k x hx hk
      cases hl : cnt.lookup k with
      | some y =>
          have := h.freshNeg k y hl hk
          have := decKey_le hl hx
          omega
      | none => exact decKey_lt_zero hl hx

theorem processDeps_inv {K : List String} (deps : List String) :
    ∀ cnt q o, KahnInv K cnt (o ++ q) →
      KahnInv K (processDeps deps cnt q).1 (o ++ (processDeps deps cnt q).2) := by
  induction deps with
  | nil => intro cnt q o h; exact h
  | cons v vs ih =>
      intro cnt q o h
      exact ih _ _ _ (kahnInv_step v h)

theorem kahnLoop_inv {K : List String} (adj : Adj) :
    ∀ fuel q cnt order, KahnInv K cnt (order ++ q) →
      (kahnLoop adj fuel q cnt order).Nodup ∧
        ∀ v ∈ kahnLoop adj fuel q cnt order, v ∈ K := by
  intro fuel
  induction fuel with
  | zero =>
      intro q cnt order h
      have hord : order.Nodup :=
        (List.sublist_append_left order q).nodup h.nodup
      have hmem : ∀ v ∈ order, v ∈ K := fun v hv =>
        h.inK v (List.mem_append.mpr (Or.inl hv))
      cases q with
      | nil =>
          refine ⟨by simpa [kahnLoop] using hord, ?_⟩
          intro v hv
          simp [kahnLoop] at hv
          exact hmem v hv
      | cons u q' =>
          refine ⟨by simpa [kahnLoop] using hord, ?_⟩
          intro v hv
          simp [kahnLoop] at hv
          exact hmem v hv
  | succ fuel ih =>
      intro q cnt order h
      cases q with
      | nil =>
          have hord : order.Nodup :=
            (List.sublist_append_left order []).nodup h.nodup
          refine ⟨by simpa [kahnLoop] using hord, ?_⟩
          intro v hv
          simp [kahnLoop] at hv
          exact h.inK v (List.mem_append.mpr (Or.inl hv))
      | cons u q' =>
          have hperm : (order ++ u :: q').Perm ((u :: order) ++ q') := by
            rw [List.cons_append]
            exact List.perm_middle
          have h' : KahnInv K cnt ((u :: order) ++ q') := h.perm hperm
          have hstep := processDeps_inv ((adj.lookup u).getD []) cnt q'
            (u :: order) h'
          simpa [kahnLoop] using ih _ _ _ hstep

/-- The invariant holds at entry to the Kahn loop. -/
theorem kahn_initial_inv (indeg : Indeg) (h : (keysOf indeg).Nodup) :
    KahnInv (keysOf indeg) indeg
      ((indeg.filter (fun p => p.2 == 0)).map Prod.fst) := by
  refine ⟨?_, ?_, ?_, ?_, ?_⟩
  · exact ((List.filter_sublist indeg).map Prod.fst).nodup h
  · intro v hv
    exact ((List.filter_sublist indeg).map Prod.fst).mem hv
  · intro v hv x hx
    obtain ⟨p, hpf, hp1⟩ := List.mem_map.mp hv
    obtain ⟨hpm, hp2⟩ := List.mem_filter.mp hpf
    have hp2' : p.2 = 0 := by simpa using hp2
    have hpv : (v, (0 : Int)) ∈ indeg := by
      have : p = (v, (0 : Int)) := Prod.ext hp1 hp2'
      exact this ▸ hpm
    rw [lookup_of_mem_nodup h hpv] at hx
    obtain rfl : (0 : Int) = x := by simpa using hx
    omega
  · intro k hk
    exact (lookup_isSome_iff indeg k).mpr hk
  · intro k x hx hk
    exact absurd ((lookup_isSome_iff indeg k).mp (by simp [hx])) hk

/-- The order produced by `kahn_topological_sort` is duplicate-free and
draws only on the keys of the indegree dict. -/
theorem kahn_order_nodup_sub (adj : Adj) (indeg : Indeg)
    (h : (keysOf indeg).Nodup) :
    (kahn_topological_sort adj indeg).1.Nodup ∧
      ∀ v ∈ (kahn_topological_sort adj indeg).1, v ∈ keysOf indeg := by
  have hinit := kahn_initial_inv indeg h
  have := kahnLoop_inv (K := keysOf indeg) adj (indeg.length + 1)
    ((indeg.filter (fun p => p.2 == 0)).map Prod.fst) indeg []
    (by simpa using hinit)
  simpa [kahn_topological_sort] using this

/-- The ordering is never longer than the node count. -/
theorem kahn_order_length_le (adj : Adj) (indeg : Indeg)
    (h : (keysOf indeg).Nodup) :
    (kahn_topological_sort adj indeg).1.length ≤ indeg.length := by
  obtain ⟨hnd, hsub⟩ := kahn_order_nodup_sub adj indeg h
  have hsub' : (kahn_topological_sort adj indeg).1 ⊆ keysOf indeg := hsub
  have := (hnd.subperm hsub').length_le
  simpa [keysOf] using this

/-! ## Claim C3 -/

/-- Two-node cycle: A requires B and B requires A, nothing else. -/
def twoCycleStore : Store := [("A", [["B"]]), ("B", [["A"]])]

/-- A graph with an acyclic prefix X → A and a cycle A ⇄ B, to observe the
best-effort partial ordering. -/
def partialCycleStore : Store := [("A", [["X"], ["B"]]), ("B", [["A"]])]

/-- Claim C3: for every dependency graph (any adjacency dict and any
indegree dict with unique keys), the topological orderer reports
`hasCycle = true` exactly when the returned sequence is strictly shorter
than the node count; on the two-node cycle A ⇄ B the partial sequence is
returned (here empty) with the flag set, and on X → A ⇄ B the acyclic
prefix `[X]` is returned rather than discarded. -/
theorem claim_C3 (adj : Adj) (indeg : Indeg) (h : (keysOf indeg).Nodup) :
    ((kahn_topological_sort adj indeg).2 = true ↔
      (kahn_topological_sort adj indeg).1.length < indeg.length)
    ∧ kahn_topological_sort (build_graph twoCycleStore).1
        (build_graph twoCycleStore).2 = ([], true)
    ∧ kahn_topological_sort (build_graph partialCycleStore).1
        (build_graph partialCycleStore).2 = (["X"], true) := by
  refine ⟨?_, by decide, by decide⟩
  have hle := kahn_order_length_le adj indeg h
  have h2 : (kahn_topological_sort adj indeg).2
      = ((kahn_topological_sort adj indeg).1.length != indeg.length) := rfl
  rw [h2]
  simp only [bne_iff_ne, ne_eq]
  omega

theorem claim_C3_witness :
    (keysOf (build_graph twoCycleStore).2).Nodup ∧
    (((kahn_topological_sort (build_graph twoCycleStore).1
          (build_graph twoCycleStore).2).2 = true ↔
        (kahn_topological_sort (build_graph twoCycleStore).1
          (build_graph twoCycleStore).2).1.length
          < (build_graph twoCycleStore).2.length)
      ∧ kahn_topological_sort (build_graph twoCycleStore).1
          (build_graph twoCycleStore).2 = ([], true)
      ∧ kahn_topological_sort (build_graph partialCycleStore).1
          (build_graph partialCycleStore).2 = (["X"], true)) :=
  ⟨by decide, claim_C3 (build_graph twoCycleStore).1
    (build_graph twoCycleStore).2 (by decide)⟩

/-! ## Claim C10 -/

theorem kahnLoopST_frame (adj : Adj) (indeg : Indeg) :
    ∀ fuel q cnt order,
      (kahnLoopST fuel q adj cnt indeg order).2.1 = adj ∧
      (kahnLoopST fuel q adj cnt indeg order).2.2 = indeg := by
  intro fuel
  induction fuel with
  | zero => intro q cnt order; cases q <;> exact ⟨rfl, rfl⟩
  | succ fuel ih =>
      intro q cnt order
      cases q with
      | nil => exact ⟨rfl, rfl⟩
      | cons u q' => exact ih _ _ _

/-- The state-threaded loop computes the same ordering as the plain one. -/
theorem kahnLoopST_fst (adj : Adj) (indeg : Indeg) :
    ∀ fuel q cnt order,
      (kahnLoopST fuel q adj cnt indeg order).1 = kahnLoop adj fuel q cnt order := by
  intro fuel
  induction fuel with
  | zero => intro q cnt order; cases q <;> rfl
  | succ fuel ih =>
      intro q cnt order
      cases q with
      | nil => rfl
      | cons u q' => exact ih _ _ _

/-- Claim C10: the topological orderer never mutates its inputs — in the
state-threaded embedding, whose every step performs exactly the dict
operations of the source (`adj.get` reads, decrements go to the copy of
`indeg`), both input maps come back unchanged. -/
theorem claim_C10 (adj : Adj) (indeg : Indeg) :
    (kahn_topological_sort_st adj indeg).2.1 = adj ∧
    (kahn_topological_sort_st adj indeg).2.2 = indeg := by
  have := kahnLoopST_frame adj indeg (indeg.length + 1)
    ((indeg.filter (fun p => p.2 == 0)).map Prod.fst) indeg []
  exact ⟨this.1, this.2⟩

/-! ## Claim C4 -/

/-- Claim C4: eligibility is monotonic in the completed set — enlarging
the completed set never turns an eligible course ineligible. -/
theorem claim_C4 (course : String) (req_groups : List (List String))
    (c1 c2 : List String) (hsub : ∀ x, x ∈ c1 → x ∈ c2)
    (h : course_is_eligible course req_groups c1 = true) :
    course_is_eligible course req_groups c2 = true := by
  unfold course_is_eligible at h ⊢
  by_cases he : req_groups.isEmpty
  · simp [he]
  · rw [if_neg he] at h ⊢
    rw [List.all_eq_true] at h ⊢
    intro g hg
    have := h g hg
    unfold is_requirement_satisfied at this ⊢
    rw [List.any_eq_true] at this ⊢
    obtain ⟨alt, halt, hc⟩ := this
    refine ⟨alt, halt, ?_⟩
    exact List.elem_eq_true_of_mem (hsub alt (List.mem_of_elem_eq_true hc))

theorem claim_C4_witness :
    (∀ x, x ∈ ["CHEM 102"] → x ∈ ["CHEM 102", "SCI 100"]) ∧
    course_is_eligible "BIOCH 310" [["CHEM 102", "SCI 100"]] ["CHEM 102"] = true ∧
    course_is_eligible "BIOCH 310" [["CHEM 102", "SCI 100"]]
      ["CHEM 102", "SCI 100"] = true :=
  ⟨by decide, by decide,
    claim_C4 "BIOCH 310" [["CHEM 102", "SCI 100"]] ["CHEM 102"]
      ["CHEM 102", "SCI 100"] (by decide) (by decide)⟩

/-! ## Claim C6 -/

/-- Claim C6: `eligible_courses` returns exactly the stored course keys
that are not completed and whose every requirement group is satisfied;
a course with an empty RequirementSet is eligible whenever it is not
completed, and a completed course is never returned. -/
theorem claim_C6 (parsed : Store) (completed : List String)
    (hkeys : (keysOf parsed).Nodup) :
    (∀ c, c ∈ eligible_courses parsed completed ↔
        ∃ gs, parsed.lookup c = some gs ∧ completed.contains c = false ∧
          course_is_eligible c gs completed = true)
    ∧ (∀ c gs, parsed.lookup c = some gs → gs = [] →
        completed.contains c = false → c ∈ eligible_courses parsed completed)
    ∧ (∀ c, completed.contains c = true →
        c ∉ eligible_courses parsed completed) := by
  have main : ∀ c, c ∈ eligible_courses parsed completed ↔
      ∃ gs, parsed.lookup c = some gs ∧ completed.contains c = false ∧
        course_is_eligible c gs completed = true := by
    intro c
    constructor
    · intro hc
      unfold eligible_courses at hc
      rw [List.mem_filterMap] at hc
      obtain ⟨p, hpm, hpf⟩ := hc
      split at hpf
      · exact absurd hpf (by simp)
      · split at hpf
        · rename_i h1 h2
          obtain rfl : p.1 = c := by simpa using hpf
          have h1' : completed.contains p.1 = false := by
            revert h1; cases completed.contains p.1 <;> simp
          refine ⟨p.2, lookup_of_mem_nodup hkeys ?_, h1', h2⟩
          exact (Prod.mk.eta (p := p)) ▸ hpm
        · exact absurd hpf (by simp)
    · rintro ⟨gs, hl, hnc, hel⟩
      unfold eligible_courses
      refine List.mem_filterMap.mpr ⟨(c, gs), lookup_mem hl, ?_⟩
      dsimp only
      rw [hnc, hel]
      simp
  refine ⟨main, ?_, ?_⟩
  · intro c gs hl hgs hnc
    refine (main c).mpr ⟨gs, hl, hnc, ?_⟩
    subst hgs
    simp [course_is_eligible]
  · intro c hc hmem
    obtain ⟨gs, _, hnc, _⟩ := (main c).mp hmem
    rw [hc] at hnc
    exact absurd hnc (by simp)

theorem claim_C6_witness :
    (keysOf [("BIOCH 310", [["CHEM 102", "SCI 100"]]), ("SCI 100", [])]).Nodup
    ∧ ("SCI 100" ∈ eligible_courses
        [("BIOCH 310", [["CHEM 102", "SCI 100"]]), ("SCI 100", [])]
        ["CHEM 102"] ↔
      ∃ gs, ([("BIOCH 310", [["CHEM 102", "SCI 100"]]),
          ("SCI 100", [])] : Store).lookup "SCI 100" = some gs ∧
        (["CHEM 102"] : List String).contains "SCI 100" = false ∧
        course_is_eligible "SCI 100" gs ["CHEM 102"] = true) :=
  ⟨by decide,
    (claim_C6 [("BIOCH 310", [["CHEM 102", "SCI 100"]]), ("SCI 100", [])]
      ["CHEM 102"] (by decide)).1 "SCI 100"⟩

/-! ## Claim C7 -/

/-- When the parse of a line yields a nonempty course code, `recordLine`
appends the parsed groups to the course's existing sequence (both source
branches extend; `setdefault` inserts an empty sequence first when the
course is new). -/
theorem recordLine_some (parsed : Store) (raw : String) (c : String)
    (g : List (List String)) (h : parse_prereq_line (pyStrip raw) = (some c, g))
    (hc : c ≠ "") : recordLine parsed raw = storeExtend parsed c g := by
  have hcolon : ':' ∈ (pyStrip raw).toList := by
    by_contra hn
    unfold parse_prereq_line at h
    rw [if_neg hn] at h
    simp at h
  have hnem : ¬((pyStrip raw == "") = true) := by
    intro he
    have he' : pyStrip raw = "" := eq_of_beq he
    rw [he'] at hcolon
    simp at hcolon
  unfold recordLine
  rw [if_neg hnem, if_neg (fun hn => hn hcolon), h]
  have hcb : ¬((c == "") = true) := fun hb => hc (eq_of_beq hb)
  dsimp only
  rw [if_neg hcb]
  exact ite_self _

/-- Claim C7: when two input lines parse to the same normalized course
code, the store appends the second record's groups after the first's
rather than replacing them. -/
theorem claim_C7 (l1 l2 : String) (c : String) (g1 g2 : List (List String))
    (h1 : parse_prereq_line (pyStrip l1) = (some c, g1))
    (h2 : parse_prereq_line (pyStrip l2) = (some c, g2))
    (hc : c ≠ "") :
    (load_and_parse [l1, l2]).lookup c = some (g1 ++ g2) := by
  unfold load_and_parse
  simp only [List.foldl_cons, List.foldl_nil]
  rw [recordLine_some [] l1 c g1 h1 hc]
  have hs1 : storeExtend [] c g1 = [(c, g1)] := by
    unfold storeExtend
    simp [List.lookup]
  rw [hs1, recordLine_some [(c, g1)] l2 c g2 h2 hc]
  unfold storeExtend
  have hl : ([(c, g1)] : Store).lookup c = some g1 := by
    rw [lookup_cons]
    simp
  rw [if_pos (by simp [hl])]
  rw [lookup_updKey_self, hl]
  rfl

theorem claim_C7_witness :
    parse_prereq_line (pyStrip "BIOCH 310 : BIOCH 200") =
      (some "BIOCH 310", [["BIOCH 200"]]) ∧
    parse_prereq_line (pyStrip "BIOCH 310 : CHEM 263 or SCI 100") =
      (some "BIOCH 310", [["CHEM 263", "SCI 100"]]) ∧
    ("BIOCH 310" : String) ≠ "" ∧
    (load_and_parse ["BIOCH 310 : BIOCH 200",
        "BIOCH 310 : CHEM 263 or SCI 100"]).lookup "BIOCH 310" =
      some ([["BIOCH 200"]] ++ [["CHEM 263", "SCI 100"]]) :=
  ⟨by decide, by decide, by decide,
    claim_C7 "BIOCH 310 : BIOCH 200" "BIOCH 310 : CHEM 263 or SCI 100"
      "BIOCH 310" [["BIOCH 200"]] [["CHEM 263", "SCI 100"]]
      (by decide) (by decide) (by decide)⟩

/-! ## Claim C2 -/

/-- Claim C2, counterexample: the claim asserts that a text containing
"consent of" is parsed by truncating at the phrase, so that
`"BIOCH 200 or consent of instructor"` yields the groups of
`"BIOCH 200"`, namely `[["BIOCH 200"]]`.  The code instead returns the
empty RequirementSet for the whole line. -/
theorem claim_C2_counterexample :
    (parse_prereq_line "BIOCH 310 : BIOCH 200 or consent of instructor").2 = []
    ∧ parse_req_groups (pyStripL "BIOCH 200".toList) = [["BIOCH 200"]]
    ∧ ([] : List (List String)) ≠ [["BIOCH 200"]] := by
  refine ⟨by decide, by decide, by decide⟩

/-- Claim C2 (amended): whenever the requirement text (after the colon)
contains the phrase "consent of" (case-insensitive, word-bounded), the
parser returns the empty RequirementSet for the whole line — the text
before the phrase is discarded as well, not parsed; in particular
"consent of instructor" yields an empty RequirementSet. -/
theorem claim_C2_amended (line : String)
    (h : (consentFind false (pyStripL (afterColon line))).isSome = true) :
    (parse_prereq_line line).2 = []
    ∧ parse_req_groups (pyStripL "consent of instructor".toList) = [] := by
  refine ⟨?_, by decide⟩
  unfold parse_prereq_line
  by_cases hcolon : ':' ∈ line.toList
  · rw [if_pos hcolon]
    dsimp only
    unfold parse_req_groups
    rw [if_pos (by rw [h]; rfl)]
  · rw [if_neg hcolon]

theorem claim_C2_witness :
    (consentFind false (pyStripL (afterColon
        "BIOCH 310 : BIOCH 200 or consent of instructor"))).isSome = true
    ∧ ((parse_prereq_line "BIOCH 310 : BIOCH 200 or consent of instructor").2 = []
      ∧ parse_req_groups (pyStripL "consent of instructor".toList) = []) :=
  ⟨by decide,
    claim_C2_amended "BIOCH 310 : BIOCH 200 or consent of instructor" (by decide)⟩

/-! ## Claim C1 -/

/-- Claim C1: evaluating the parser on the requirement text
`"BIOCH 200, CHEM 102 (or SCI 100) and CHEM 263"`.  The code produces
`[["BIOCH 200", "CHEM 102"], ["CHEM 263"]]`: the comma keeps BIOCH 200
and CHEM 102 in one alternative group, and `re.search` takes only the
first code of the sub-token `"CHEM 102 (or SCI 100)"`, so SCI 100 is
dropped — not the `[["BIOCH 200"], ["CHEM 102", "SCI 100"], ["CHEM 263"]]`
promised by the claim and by the source's own docstring. -/
theorem claim_C1 :
    parse_req_groups
        "BIOCH 200, CHEM 102 (or SCI 100) and CHEM 263".toList =
      [["BIOCH 200", "CHEM 102"], ["CHEM 263"]]
    ∧ parse_prereq_line
        "BIOCH 310 : BIOCH 200, CHEM 102 (or SCI 100) and CHEM 263" =
      (some "BIOCH 310", [["BIOCH 200", "CHEM 102"], ["CHEM 263"]])
    ∧ [["BIOCH 200", "CHEM 102"], ["CHEM 263"]] ≠
      ([["BIOCH 200"], ["CHEM 102", "SCI 100"], ["CHEM 263"]] :
        List (List String)) := by
  refine ⟨by decide, by decide, by decide⟩

/-! ## Graph-builder invariants (claim C8) -/

theorem addCourse_mem_self (l : List String) (c : String) : c ∈ addCourse l c := by
  unfold addCourse
  by_cases h : c ∈ l
  · rwa [if_pos h]
  · rw [if_neg h]; simp

theorem addCourse_mem_mono {l : List String} {x : String} (c : String)
    (h : x ∈ l) : x ∈ addCourse l c := by
  unfold addCourse
  by_cases hc : c ∈ l
  · rwa [if_pos hc]
  · rw [if_neg hc]; exact List.mem_append.mpr (Or.inl h)

theorem addCourse_nodup {l : List String} (c : String) (h : l.Nodup) :
    (addCourse l c).Nodup := by
  unfold addCourse
  by_cases hc : c ∈ l
  · rwa [if_pos hc]
  · rw [if_neg hc]
    refine List.nodup_append.mpr ⟨h, List.nodup_singleton c, ?_⟩
    intro x hx hx'
    simp at hx'
    exact hc (hx' ▸ hx)

/-- Invariant of the adjacency/node-set pair during `build_graph`:
dict keys are unique, neighbour sets are duplicate-free, and every
neighbour has been recorded as a node. -/
structure AdjInv (adj : Adj) (all : List String) : Prop where
  keysNodup : (keysOf adj).Nodup
  valsNodup : ∀ p ∈ adj, p.2.Nodup
  tgtSub : ∀ p ∈ adj, ∀ v ∈ p.2, v ∈ all
  allNodup : all.Nodup

theorem AdjInv.mono {adj : Adj} {all all' : List String} (h : AdjInv adj all)
    (hsub : ∀ x ∈ all, x ∈ all') (hnd : all'.Nodup) : AdjInv adj all' where
  keysNodup := h.keysNodup
  valsNodup := h.valsNodup
  tgtSub := fun p hp v hv => hsub v (h.tgtSub p hp v hv)
  allNodup := hnd

theorem mem_updKey {α : Type} {m : List (String × α)} {k : String}
    {f : α → α} {q : String × α} (h : q ∈ updKey m k f) :
    ∃ q₀ ∈ m, q = if q₀.1 == k then (q₀.1, f q₀.2) else q₀ := by
  obtain ⟨q₀, hq₀, hq⟩ := List.mem_map.mp h
  exact ⟨q₀, hq₀, hq.symm⟩

theorem adjAdd_inv {adj : Adj} {all : List String} (h : AdjInv adj all)
    {prereq course : String} (hc : course ∈ all) :
    AdjInv (adjAdd adj prereq course) all := by
  unfold adjAdd
  cases hl : adj.lookup prereq with
  | some nbrs =>
      dsimp only
      by_cases hmem : course ∈ nbrs
      · rw [if_pos hmem]; exact h
      · rw [if_neg hmem]
        refine ⟨by rw [keysOf_updKey]; exact h.keysNodup, ?_, ?_, h.allNodup⟩
        · intro q hq
          obtain ⟨q₀, hq₀, hqe⟩ := mem_updKey hq
          by_cases hk : q₀.1 == prereq
          · rw [hqe, if_pos hk]
            have hq₀e : adj.lookup q₀.1 = some q₀.2 :=
              lookup_of_mem_nodup h.keysNodup
                ((Prod.mk.eta (p := q₀)) ▸ hq₀)
            rw [eq_of_beq hk, hl] at hq₀e
            obtain rfl : nbrs = q₀.2 := by simpa using hq₀e
            refine List.nodup_append.mpr
              ⟨h.valsNodup q₀ hq₀, List.nodup_singleton course, ?_⟩
            intro x hx hx'
            simp at hx'
            exact hmem (hx' ▸ hx)
          · rw [hqe, if_neg hk]
            exact h.valsNodup q₀ hq₀
        · intro q hq v hv
          obtain ⟨q₀, hq₀, hqe⟩ := mem_updKey hq
          by_cases hk : q₀.1 == prereq
          · rw [hqe, if_pos hk] at hv
            rcases List.mem_append.mp hv with hv | hv
            · exact h.tgtSub q₀ hq₀ v hv
            · simp at hv; exact hv ▸ hc
          · rw [hqe, if_neg hk] at hv
            exact h.tgtSub q₀ hq₀ v hv
  | none =>
      dsimp only
      refine ⟨?_, ?_, ?_, h.allNodup⟩
      · rw [keysOf_append_single]
        refine List.nodup_append.mpr ⟨h.keysNodup, List.nodup_singleton _, ?_⟩
        intro x hx hx'
        simp at hx'
        subst hx'
        have := (lookup_isSome_iff adj x).mpr hx
        rw [hl] at this
        simp at this
      · intro q hq
        rcases List.mem_append.mp hq with hq | hq
        · exact h.valsNodup q hq
        · simp at hq; subst hq; exact List.nodup_singleton _
      · intro q hq v hv
        rcases List.mem_append.mp hq with hq | hq
        · exact h.tgtSub q hq v hv
        · simp at hq
          subst hq
          simp at hv
          exact hv ▸ hc

theorem buildGroup_spec (course : String) :
    ∀ (g : List String) (adj : Adj) (all : List String),
      AdjInv adj all → course ∈ all →
      AdjInv (buildGroup course g (adj, all)).1 (buildGroup course g (adj, all)).2 ∧
      (∀ x ∈ all, x ∈ (buildGroup course g (adj, all)).2) ∧
      course ∈ (buildGroup course g (adj, all)).2 ∧
      (∀ v ∈ g, v ∈ (buildGroup course g (adj, all)).2) := by
  intro g
  induction g with
  | nil =>
      intro adj all h hc
      exact ⟨h, fun x hx => hx, hc, by simp⟩
  | cons prereq rest ih =>
      intro adj all h hc
      have hall' : (addCourse all prereq).Nodup := addCourse_nodup prereq h.allNodup
      have hmono : ∀ x ∈ all, x ∈ addCourse all prereq :=
        fun x hx => addCourse_mem_mono prereq hx
      have hinv' : AdjInv (adjAdd adj prereq course) (addCourse all prereq) :=
        adjAdd_inv (h.mono hmono hall') (hmono course hc)
      have hc' : course ∈ addCourse all prereq := hmono course hc
      obtain ⟨h1, h2, h3, h4⟩ := ih (adjAdd adj prereq course)
        (addCourse all prereq) hinv' hc'
      refine ⟨h1, fun x hx => h2 x (hmono x hx), h3, ?_⟩
      intro v hv
      rcases List.mem_cons.mp hv with hv | hv
      · exact hv ▸ h2 prereq (addCourse_mem_self all prereq)
      · exact h4 v hv

theorem buildGroups_spec (course : String) :
    ∀ (gs : List (List String)) (adj : Adj) (all : List String),
      AdjInv adj all → course ∈ all →
      AdjInv (buildGroups course gs (adj, all)).1
        (buildGroups course gs (adj, all)).2 ∧
      (∀ x ∈ all, x ∈ (buildGroups course gs (adj, all)).2) ∧
      course ∈ (buildGroups course gs (adj, all)).2 ∧
      (∀ g ∈ gs, ∀ v ∈ g, v ∈ (buildGroups course gs (adj, all)).2) := by
  intro gs
  induction gs with
  | nil =>
      intro adj all h hc
      exact ⟨h, fun x hx => hx, hc, by simp⟩
  | cons g rest ih =>
      intro adj all h hc
      obtain ⟨h1, h2, h3, h4⟩ := buildGroup_spec course g adj all h hc
      obtain ⟨k1, k2, k3, k4⟩ := ih (buildGroup course g (adj, all)).1
        (buildGroup course g (adj, all)).2 h1 h3
      refine ⟨k1, fun x hx => k2 x (h2 x hx), k3, ?_⟩
      intro g' hg' v hv
      rcases List.mem_cons.mp hg' with hg' | hg'
      · exact k2 v (h4 v (hg' ▸ hv))
      · exact k4 g' hg' v hv

theorem buildAdjAll_spec :
    ∀ (store : Store) (adj : Adj) (all : List String), AdjInv adj all →
      AdjInv (buildAdjAll store (adj, all)).1 (buildAdjAll store (adj, all)).2 ∧
      (∀ x ∈ all, x ∈ (buildAdjAll store (adj, all)).2) ∧
      (∀ p ∈ store, p.1 ∈ (buildAdjAll store (adj, all)).2 ∧
        ∀ g ∈ p.2, ∀ v ∈ g, v ∈ (buildAdjAll store (adj, all)).2) := by
  intro store
  induction store with
  | nil =>
      intro adj all h
      exact ⟨h, fun x hx => hx, by simp⟩
  | cons p ps ih =>
      intro adj all h
      obtain ⟨course, groups⟩ := p
      have hall' : (addCourse all course).Nodup := addCourse_nodup course h.allNodup
      have hmono : ∀ x ∈ all, x ∈ addCourse all course :=
        fun x hx => addCourse_mem_mono course hx
      have hinv' : AdjInv adj (addCourse all course) := h.mono hmono hall'
      obtain ⟨h1, h2, h3, h4⟩ := buildGroups_spec course groups adj
        (addCourse all course) hinv' (addCourse_mem_self all course)
      obtain ⟨k1, k2, k3⟩ := ih (buildGroups course groups (adj, addCourse all course)).1
        (buildGroups course groups (adj, addCourse all course)).2 h1
      refine ⟨k1, fun x hx => k2 x (h2 x (hmono x hx)), ?_⟩
      intro q hq
      rcases List.mem_cons.mp hq with hq | hq
      · subst hq
        exact ⟨k2 course h3, fun g hg v hv => k2 v (h4 g hg v hv)⟩
      · exact k3 q hq

theorem keysOf_zeroIndeg (all : List String) : keysOf (zeroIndeg all) = all := by
  induction all with
  | nil => rfl
  | cons c cs ih =>
      simp only [keysOf, zeroIndeg, List.map_cons] at ih ⊢
      rw [ih]

theorem lookup_zeroIndeg {all : List String} {v : String} (hnd : all.Nodup)
    (h : v ∈ all) : (zeroIndeg all).lookup v = some 0 := by
  refine lookup_of_mem_nodup ?_ ?_
  · rw [keysOf_zeroIndeg]; exact hnd
  · exact List.mem_map.mpr ⟨v, h, rfl⟩

theorem keysOf_incKey {m : Indeg} {k : String} (h : k ∈ keysOf m) :
    keysOf (incKey m k) = keysOf m := by
  unfold incKey
  rw [if_pos ((lookup_isSome_iff m k).mpr h), keysOf_updKey]

theorem lookup_incKey_self {m : Indeg} {k : String} {x : Int}
    (h : m.lookup k = some x) : (incKey m k).lookup k = some (x + 1) := by
  unfold incKey
  rw [if_pos (by simp [h]), lookup_updKey_self, h]
  rfl

theorem lookup_incKey_ne {m : Indeg} {k k' : String} (h : k' ≠ k) :
    (incKey m k).lookup k' = m.lookup k' := by
  unfold incKey
  by_cases hs : (m.lookup k).isSome
  · rw [if_pos hs, lookup_updKey_ne _ _ h]
  · rw [if_neg hs, lookup_append_single_ne _ _ h]

theorem incFold_keys :
    ∀ (vs : List String) (m : Indeg), (∀ w ∈ vs, w ∈ keysOf m) →
      keysOf (vs.foldl incKey m) = keysOf m := by
  intro vs
  induction vs with
  | nil => intro m _; rfl
  | cons w ws ih =>
      intro m hsub
      rw [List.foldl_cons, ih (incKey m w) ?sub, keysOf_incKey (hsub w (by simp))]
      case sub =>
        intro u hu
        rw [keysOf_incKey (hsub w (by simp))]
        exact hsub u (List.mem_cons_of_mem _ hu)

theorem incFold_lookup :
    ∀ (vs : List String) (m : Indeg) (v : String) (x : Int),
      (∀ w ∈ vs, w ∈ keysOf m) → m.lookup v = some x →
      (vs.foldl incKey m).lookup v = some (x + (vs.count v : Int)) := by
  intro vs
  induction vs with
  | nil => intro m v x _ h; simpa using h
  | cons w ws ih =>
      intro m v x hsub h
      rw [List.foldl_cons]
      have hksub : ∀ u ∈ ws, u ∈ keysOf (incKey m w) := by
        intro u hu
        rw [keysOf_incKey (hsub w (by simp))]
        exact hsub u (List.mem_cons_of_mem _ hu)
      by_cases hvw : v = w
      · subst hvw
        have hrec := ih (incKey m v) v (x + 1) hksub (lookup_incKey_self h)
        rw [hrec]
        congr 1
        rw [List.count_cons_self]
        push_cast
        omega
      · have hrec := ih (incKey m w) v x hksub (by rw [lookup_incKey_ne hvw]; exact h)
        rw [hrec]
        congr 1
        rw [List.count_cons_of_ne hvw]

theorem addIndegrees_lookup :
    ∀ (adj : Adj) (m : Indeg) (v : String) (x : Int),
      (∀ p ∈ adj, ∀ w ∈ p.2, w ∈ keysOf m) →
      (∀ p ∈ adj, p.2.Nodup) →
      m.lookup v = some x →
      (addIndegrees adj m).lookup v = some (x + countIn adj v) := by
  intro adj
  induction adj with
  | nil =>
      intro m v x _ _ h
      unfold addIndegrees countIn
      simpa using h
  | cons p ps ih =>
      intro m v x hsub hnd h
      have hstep : addIndegrees (p :: ps) m = addIndegrees ps (p.2.foldl incKey m) := by
        unfold addIndegrees
        rw [List.foldl_cons]
      have hsub1 : ∀ w ∈ p.2, w ∈ keysOf m := hsub p (by simp)
      have hkeys : keysOf (p.2.foldl incKey m) = keysOf m := incFold_keys p.2 m hsub1
      have hlk : (p.2.foldl incKey m).lookup v = some (x + (p.2.count v : Int)) :=
        incFold_lookup p.2 m v x hsub1 h
      have hrec := ih (p.2.foldl incKey m) v (x + (p.2.count v : Int))
        (fun q hq w hw => by rw [hkeys]; exact hsub q (List.mem_cons_of_mem _ hq) w hw)
        (fun q hq => hnd q (List.mem_cons_of_mem _ hq)) hlk
      rw [hstep, hrec]
      have hcnt : countIn (p :: ps) v
          = countIn ps v + (if p.2.contains v then 1 else 0) := by
        unfold countIn
        by_cases hcv : p.2.contains v
        · rw [List.filter_cons_of_pos (by simpa using hcv), if_pos hcv]
          simp only [List.length_cons]
          push_cast
          omega
        · rw [List.filter_cons_of_neg (by simpa using hcv), if_neg hcv]
          simp
      have hpc : (p.2.count v : Int) = (if p.2.contains v then 1 else 0) := by
        by_cases hcv : v ∈ p.2
        · rw [List.count_eq_one_of_mem (hnd p (by simp)) hcv]
          simp [hcv]
        · rw [List.count_eq_zero_of_not_mem hcv]
          simp [hcv]
      rw [hcnt, hpc]
      congr 1
      omega

theorem addIndegrees_keys :
    ∀ (adj : Adj) (m : Indeg),
      (∀ p ∈ adj, ∀ w ∈ p.2, w ∈ keysOf m) →
      keysOf (addIndegrees adj m) = keysOf m := by
  intro adj
  induction adj with
  | nil => intro m _; rfl
  | cons p ps ih =>
      intro m hsub
      have hstep : addIndegrees (p :: ps) m = addIndegrees ps (p.2.foldl incKey m) := by
        unfold addIndegrees
        rw [List.foldl_cons]
      have hkeys : keysOf (p.2.foldl incKey m) = keysOf m :=
        incFold_keys p.2 m (hsub p (by simp))
      rw [hstep, ih _ (fun q hq w hw => by
        rw [hkeys]; exact hsub q (List.mem_cons_of_mem _ hq) w hw), hkeys]

theorem foldl_addCourse_spec :
    ∀ (store : Store) (acc : List String), acc.Nodup →
      (store.foldl (fun acc p => addCourse acc p.1) acc).Nodup ∧
      (∀ x ∈ acc, x ∈ store.foldl (fun acc p => addCourse acc p.1) acc) := by
  intro store
  induction store with
  | nil => intro acc h; exact ⟨h, fun x hx => hx⟩
  | cons p ps ih =>
      intro acc h
      rw [List.foldl_cons]
      obtain ⟨h1, h2⟩ := ih (addCourse acc p.1) (addCourse_nodup p.1 h)
      exact ⟨h1, fun x hx => h2 x (addCourse_mem_mono p.1 hx)⟩

/-! ## Claim C8 -/

/-- Claim C8: the graph builder's node set (the indegree keys) contains
every store key and every course code occurring in any requirement group;
adjacency keys are unique and each adjacency set holds a dependent at most
once (duplicate edges are no-ops); and each node's indegree is exactly
the number of distinct sources with an edge into it, so nodes without
incoming edges get indegree 0. -/
theorem claim_C8 (store : Store) :
    (∀ k ∈ keysOf store, k ∈ keysOf (build_graph store).2)
    ∧ (∀ p ∈ store, ∀ g ∈ p.2, ∀ v ∈ g, v ∈ keysOf (build_graph store).2)
    ∧ (keysOf (build_graph store).1).Nodup
    ∧ (∀ p ∈ (build_graph store).1, p.2.Nodup)
    ∧ (∀ v ∈ keysOf (build_graph store).2,
        (build_graph store).2.lookup v = some (countIn (build_graph store).1 v))
    ∧ (∀ v ∈ keysOf (build_graph store).2,
        countIn (build_graph store).1 v = 0 →
        (build_graph store).2.lookup v = some 0) := by
  obtain ⟨hn0, _⟩ := foldl_addCourse_spec store [] List.nodup_nil
  have hinv0 : AdjInv [] (store.foldl (fun acc p => addCourse acc p.1) []) :=
    ⟨List.nodup_nil, by simp, by simp, hn0⟩
  obtain ⟨hinv, hmono, hstore⟩ := buildAdjAll_spec store []
    (store.foldl (fun acc p => addCourse acc p.1) []) hinv0
  set st := buildAdjAll store ([], store.foldl (fun acc p => addCourse acc p.1) [])
    with hst
  have hbg : build_graph store = (st.1, addIndegrees st.1 (zeroIndeg st.2)) := rfl
  have htgt : ∀ p ∈ st.1, ∀ w ∈ p.2, w ∈ keysOf (zeroIndeg st.2) := by
    intro p hp w hw
    rw [keysOf_zeroIndeg]
    exact hinv.tgtSub p hp w hw
  have hkeys : keysOf (build_graph store).2 = st.2 := by
    rw [hbg]
    exact (addIndegrees_keys st.1 (zeroIndeg st.2) htgt).trans
      (keysOf_zeroIndeg st.2)
  have hlook : ∀ v ∈ keysOf (build_graph store).2,
      (build_graph store).2.lookup v = some (countIn (build_graph store).1 v) := by
    intro v hv
    rw [hkeys] at hv
    rw [hbg]
    have h0 : (zeroIndeg st.2).lookup v = some 0 :=
      lookup_zeroIndeg hinv.allNodup hv
    have := addIndegrees_lookup st.1 (zeroIndeg st.2) v 0 htgt hinv.valsNodup h0
    rw [this]
    rw [zero_add]
  refine ⟨?_, ?_, hinv.keysNodup, hinv.valsNodup, hlook, ?_⟩
  · intro k hk
    rw [hkeys]
    obtain ⟨p, hp, rfl⟩ := List.mem_map.mp hk
    exact (hstore p hp).1
  · intro p hp g hg v hv
    rw [hkeys]
    exact (hstore p hp).2 g hg v hv
  · intro v hv hz
    rw [hlook v hv, hz]

/-! ## Edge-respecting order (claim C5) -/

/-- `u → v` is an edge of the adjacency dict. -/
def hasEdge (adj : Adj) (u v : String) : Prop :=
  v ∈ ((adj.lookup u).getD [])

/-- Number of already-processed sources of edges into `v`. -/
def processedIn (adj : Adj) (order : List String) (v : String) : Nat :=
  (order.filter (fun u => ((adj.lookup u).getD []).contains v)).length

instance hasEdge.decidable (adj : Adj) (u v : String) :
    Decidable (hasEdge adj u v) :=
  inferInstanceAs (Decidable (v ∈ (adj.lookup u).getD []))

theorem hasEdge_iff {adj : Adj} {u v : String} :
    hasEdge adj u v ↔ ∃ l, adj.lookup u = some l ∧ v ∈ l := by
  unfold hasEdge
  cases hl : adj.lookup u with
  | none => simp
  | some l => simp

/-- If no edges enter `v`, nothing is an edge-source of `v`. -/
theorem no_source_of_countIn_zero {adj : Adj} {v : String}
    (h : countIn adj v = 0) : ∀ u, ¬ hasEdge adj u v := by
  intro u he
  obtain ⟨l, hl, hv⟩ := hasEdge_iff.mp he
  have hmem : (u, l) ∈ adj.filter (fun p => p.2.contains v) :=
    List.mem_filter.mpr ⟨lookup_mem hl, by simpa using hv⟩
  have : 0 < (adj.filter (fun p => p.2.contains v)).length :=
    List.length_pos.mpr (fun hnil => by rw [hnil] at hmem; simp at hmem)
  unfold countIn at h
  omega

/-- The enqueue test after the decrement equals a pre-decrement test. -/
theorem decKey_zero_test (cnt : Indeg) (v : String) :
    ((decKey cnt v).lookup v == some 0) = (cnt.lookup v == some 1) := by
  rw [lookup_decKey_self]
  cases hl : cnt.lookup v with
  | none => simp
  | some y =>
      simp only [Option.getD_some]
      rw [Bool.eq_iff_iff]
      simp only [beq_iff_eq, Option.some.injEq]
      omega

/-- Characterisation of one `processDeps` pass over a duplicate-free
neighbour list: all decrements are applied, and exactly the neighbours
whose counter stood at 1 are appended to the queue, in order. -/
theorem processDeps_eq :
    ∀ (deps : List String) (cnt : Indeg) (q : List String), deps.Nodup →
      processDeps deps cnt q =
        (deps.foldl decKey cnt,
          q ++ deps.filter (fun v => cnt.lookup v == some 1)) := by
  intro deps
  induction deps with
  | nil => intro cnt q _; simp [processDeps]
  | cons v vs ih =>
      intro cnt q hnd
      have hv : v ∉ vs := (List.nodup_cons.mp hnd).1
      have hnd' : vs.Nodup := (List.nodup_cons.mp hnd).2
      show processDeps vs (decKey cnt v)
          (if (decKey cnt v).lookup v == some 0 then q ++ [v] else q) = _
      rw [ih (decKey cnt v) _ hnd']
      have hfc : vs.filter (fun w => (decKey cnt v).lookup w == some 1)
          = vs.filter (fun w => cnt.lookup w == some 1) := by
        apply List.filter_congr
        intro w hw
        have hwv : w ≠ v := fun he => hv (he ▸ hw)
        rw [lookup_decKey_ne _ hwv]
      rw [hfc, decKey_zero_test]
      rw [List.foldl_cons]
      by_cases hb : (cnt.lookup v == some 1) = true
      · rw [if_pos hb]
        simp only [List.filter_cons, hb, if_true]
        rw [List.append_assoc]
        rfl
      · have hb' : (cnt.lookup v == some 1) = false := by
          revert hb; cases (cnt.lookup v == some 1) <;> simp
        rw [if_neg hb]
        simp only [List.filter_cons, hb', Bool.false_eq_true, if_false]

/-- All decrements of a pass, as a lookup formula. -/
theorem decAll_lookup :
    ∀ (deps : List String) (cnt : Indeg) (v : String) (x : Int),
      cnt.lookup v = some x →
      (deps.foldl decKey cnt).lookup v = some (x - (deps.count v : Int)) := by
  intro deps
  induction deps with
  | nil => intro cnt v x h; simpa using h
  | cons w ws ih =>
      intro cnt v x h
      rw [List.foldl_cons]
      by_cases hvw : v = w
      · subst hvw
        have hdec : (decKey cnt v).lookup v = some (x - 1) := by
          rw [lookup_decKey_self, h]
          rfl
        rw [ih (decKey cnt v) v (x - 1) hdec, List.count_cons_self]
        congr 1
        push_cast
        omega
      · have hdec : (decKey cnt w).lookup v = some x := by
          rw [lookup_decKey_ne _ hvw]; exact h
        rw [ih (decKey cnt w) v x hdec, List.count_cons_of_ne hvw]

theorem count_int_of_nodup {l : List String} (h : l.Nodup) (w : String) :
    (l.count w : Int) = if l.contains w then 1 else 0 := by
  by_cases hc : w ∈ l
  · rw [List.count_eq_one_of_mem h hc]
    simp [hc]
  · rw [List.count_eq_zero_of_not_mem hc]
    simp [hc]

theorem processedIn_cons (adj : Adj) (u0 : String) (order : List String)
    (v : String) :
    processedIn adj (u0 :: order) v =
      processedIn adj order v +
        (if ((adj.lookup u0).getD []).contains v then 1 else 0) := by
  unfold processedIn
  rw [List.filter_cons]
  by_cases h : ((adj.lookup u0).getD []).contains v
  · rw [if_pos h, if_pos h, List.length_cons]
  · rw [if_neg h, if_neg h]
    omega

/-- When the processed sources of `v` number exactly the incoming-edge
count, every edge-source of `v` has been processed. -/
theorem all_sources_processed {adj : Adj} (h2 : (keysOf adj).Nodup)
    {order : List String} (hnd : order.Nodup) {v : String}
    (heq : (processedIn adj order v : Int) = countIn adj v) :
    ∀ u, hasEdge adj u v → u ∈ order := by
  intro u hu
  have hsnd : ((adj.filter (fun p => p.2.contains v)).map Prod.fst).Nodup :=
    ((List.filter_sublist adj).map Prod.fst).nodup h2
  have hpnd : (order.filter
      (fun u => ((adj.lookup u).getD []).contains v)).Nodup := hnd.filter _
  have hsub : order.filter (fun u => ((adj.lookup u).getD []).contains v)
      ⊆ (adj.filter (fun p => p.2.contains v)).map Prod.fst := by
    intro w hw
    have hw2 := (List.mem_filter.mp hw).2
    obtain ⟨l, hl, hvl⟩ := hasEdge_iff.mp (List.mem_of_elem_eq_true hw2)
    exact List.mem_map.mpr ⟨(w, l),
      List.mem_filter.mpr ⟨lookup_mem hl, List.elem_eq_true_of_mem hvl⟩, rfl⟩
  have hlen : ((adj.filter (fun p => p.2.contains v)).map Prod.fst).length ≤
      (order.filter (fun u => ((adj.lookup u).getD []).contains v)).length := by
    have hc : countIn adj v
        = (((adj.filter (fun p => p.2.contains v)).map Prod.fst).length : Int) := by
      unfold countIn
      rw [List.length_map]
    rw [hc] at heq
    have := Int.ofNat.inj heq
    unfold processedIn at this
    omega
  have hperm := (List.subperm_of_subset hpnd hsub).perm_of_length_le hlen
  obtain ⟨l, hl, hvl⟩ := hasEdge_iff.mp hu
  have husrc : u ∈ (adj.filter (fun p => p.2.contains v)).map Prod.fst :=
    List.mem_map.mpr ⟨(u, l),
      List.mem_filter.mpr ⟨lookup_mem hl, List.elem_eq_true_of_mem hvl⟩, rfl⟩
  have hup : u ∈ order.filter (fun u => ((adj.lookup u).getD []).contains v) :=
    hperm.mem_iff.mpr husrc
  exact (List.mem_filter.mp hup).1

/-- Main loop invariant for edge respect: every enqueued node has all its
edge-sources already processed, and the processed prefix respects all
edges; both are preserved by a loop step, so any decomposition of the
final order at a node `v` has every source of `v` in the prefix. -/
theorem kahnLoop_resp (adj : Adj) (K : List String)
    (h2 : (keysOf adj).Nodup) (h3 : ∀ p ∈ adj, p.2.Nodup) :
    ∀ fuel q cnt order,
      KahnInv K cnt (order ++ q) →
      (∀ w ∈ K, cnt.lookup w
          = some (countIn adj w - (processedIn adj order w : Int))) →
      (∀ w ∈ q, ∀ u', hasEdge adj u' w → u' ∈ order) →
      (∀ u' w, hasEdge adj u' w → ∀ m1 m2, order = m1 ++ w :: m2 → u' ∈ m2) →
      ∀ u v, hasEdge adj u v → ∀ l1 l2,
        kahnLoop adj fuel q cnt order = l1 ++ v :: l2 → u ∈ l1 := by
  have exit : ∀ (order l1 l2 : List String) u v, hasEdge adj u v →
      (∀ u' w, hasEdge adj u' w → ∀ m1 m2, order = m1 ++ w :: m2 → u' ∈ m2) →
      order.reverse = l1 ++ v :: l2 → u ∈ l1 := by
    intro order l1 l2 u v he hord hres
    have horder : order = l2.reverse ++ v :: l1.reverse := by
      have hc := congrArg List.reverse hres
      rw [List.reverse_reverse] at hc
      rw [hc]
      simp
    have := hord u v he l2.reverse l1.reverse horder
    simpa using this
  intro fuel
  induction fuel with
  | zero =>
      intro q cnt order hbase hcnt hq hord u v he l1 l2 hres
      have hres' : order.reverse = l1 ++ v :: l2 := by
        cases q <;> simpa [kahnLoop] using hres
      exact exit order l1 l2 u v he hord hres'
  | succ fuel ih =>
      intro q cnt order hbase hcnt hq hord u v he l1 l2 hres
      cases q with
      | nil =>
          have hres' : order.reverse = l1 ++ v :: l2 := by
            simpa [kahnLoop] using hres
          exact exit order l1 l2 u v he hord hres'
      | cons u0 qrest =>
          have hdnd : ((adj.lookup u0).getD []).Nodup := by
            cases hl : adj.lookup u0 with
            | none => simp
            | some l => simpa using h3 (u0, l) (lookup_mem hl)
          have hstep : kahnLoop adj (fuel + 1) (u0 :: qrest) cnt order
              = kahnLoop adj fuel
                  (processDeps ((adj.lookup u0).getD []) cnt qrest).2
                  (processDeps ((adj.lookup u0).getD []) cnt qrest).1
                  (u0 :: order) := rfl
          rw [hstep, processDeps_eq _ cnt qrest hdnd] at hres
          have hperm : (order ++ u0 :: qrest).Perm ((u0 :: order) ++ qrest) := by
            rw [List.cons_append]
            exact List.perm_middle
          have hbase' : KahnInv K cnt ((u0 :: order) ++ qrest) := hbase.perm hperm
          have hbase'' := processDeps_inv ((adj.lookup u0).getD []) cnt qrest
            (u0 :: order) hbase'
          rw [processDeps_eq _ cnt qrest hdnd] at hbase''
          dsimp only at hbase'' hres
          have hu0nodup : (u0 :: order).Nodup :=
            (List.sublist_append_left (u0 :: order) _).nodup hbase''.nodup
          -- updated counter formula
          have hcnt' : ∀ w ∈ K,
              (((adj.lookup u0).getD []).foldl decKey cnt).lookup w
                = some (countIn adj w - (processedIn adj (u0 :: order) w : Int)) := by
            intro w hw
            rw [decAll_lookup _ cnt w _ (hcnt w hw), processedIn_cons,
              count_int_of_nodup hdnd]
            by_cases hcw : ((adj.lookup u0).getD []).contains w = true
            · simp only [hcw, if_true]
              congr 1
              push_cast
              omega
            · have hcf : ((adj.lookup u0).getD []).contains w = false := by
                revert hcw
                cases ((adj.lookup u0).getD []).contains w <;> simp
              simp only [hcf, Bool.false_eq_true, if_false]
              congr 1
              push_cast
              omega
          -- every node of the new queue has all its sources processed
          have hq' : ∀ w ∈ qrest ++ ((adj.lookup u0).getD []).filter
                (fun w => cnt.lookup w == some 1),
              ∀ u', hasEdge adj u' w → u' ∈ u0 :: order := by
            intro w hwmem u' hew
            rcases List.mem_append.mp hwmem with hw | hw
            · exact List.mem_cons_of_mem _ (hq w (List.mem_cons_of_mem _ hw) u' hew)
            · obtain ⟨hwd, hwtest⟩ := List.mem_filter.mp hw
              have hw1 : cnt.lookup w = some 1 := eq_of_beq hwtest
              have hwK : w ∈ K := by
                by_contra hno
                have := hbase.freshNeg w 1 hw1 hno
                omega
              have heq1 : countIn adj w - (processedIn adj order w : Int) = 1 := by
                have := hcnt w hwK
                rw [hw1] at this
                simpa using this.symm
              have hfull : (processedIn adj (u0 :: order) w : Int) = countIn adj w := by
                rw [processedIn_cons, if_pos (List.elem_eq_true_of_mem hwd)]
                push_cast
                omega
              exact all_sources_processed h2 hu0nodup hfull u' hew
          -- the grown prefix still respects all edges
          have hord' : ∀ u' w, hasEdge adj u' w → ∀ m1 m2,
              u0 :: order = m1 ++ w :: m2 → u' ∈ m2 := by
            intro u' w hew m1 m2 hdec
            cases m1 with
            | nil =>
                simp at hdec
                obtain ⟨rfl, rfl⟩ := hdec
                exact hq u0 (List.mem_cons_self _ _) u' hew
            | cons a m1' =>
                rw [List.cons_append] at hdec
                have h1 := List.head_eq_of_cons_eq hdec
                have h2' := List.tail_eq_of_cons_eq hdec
                exact hord u' w hew m1' m2 h2'
          exact ih _ _ _ hbase'' hcnt' hq' hord' u v he l1 l2 hres

/-- Acyclic chain: B requires A, C requires B. -/
def chainStore : Store := [("B", [["A"]]), ("C", [["B"]])]

/-- Claim C5: the ordering respects every edge — whenever both endpoints
of an edge `u → v` appear in the returned sequence, the prerequisite `u`
appears strictly before `v` (here: in the prefix of any decomposition of
the order at `v`); hypotheses state that the input is a genuine
dependency graph (unique dict keys, deduplicated adjacency sets, indegree
= number of distinct incoming edges, as `build_graph` produces).  On the
chain where B requires A and C requires B, the result is exactly
A, B, C. -/
theorem claim_C5 (adj : Adj) (indeg : Indeg)
    (h1 : (keysOf indeg).Nodup) (h2 : (keysOf adj).Nodup)
    (h3 : ∀ p ∈ adj, p.2.Nodup)
    (h4 : ∀ v ∈ keysOf indeg, indeg.lookup v = some (countIn adj v)) :
    (∀ u v l1 l2, hasEdge adj u v →
      u ∈ (kahn_topological_sort adj indeg).1 →
      (kahn_topological_sort adj indeg).1 = l1 ++ v :: l2 → u ∈ l1)
    ∧ kahn_topological_sort (build_graph chainStore).1
        (build_graph chainStore).2 = (["A", "B", "C"], false) := by
  refine ⟨?_, by decide⟩
  intro u v l1 l2 he hu hdec
  have hbase0 := kahn_initial_inv indeg h1
  have hcnt0 : ∀ w ∈ keysOf indeg, indeg.lookup w
      = some (countIn adj w - (processedIn adj [] w : Int)) := by
    intro w hw
    rw [h4 w hw]
    unfold processedIn
    simp
  have hq0 : ∀ w ∈ (indeg.filter (fun p => p.2 == 0)).map Prod.fst,
      ∀ u', hasEdge adj u' w → u' ∈ ([] : List String) := by
    intro w hwmem u' hew
    obtain ⟨p, hpf, hp1⟩ := List.mem_map.mp hwmem
    obtain ⟨hpm, hp2⟩ := List.mem_filter.mp hpf
    have hp2' : p.2 = 0 := by simpa using hp2
    have hpv : (w, (0 : Int)) ∈ indeg := by
      have : p = (w, (0 : Int)) := Prod.ext hp1 hp2'
      exact this ▸ hpm
    have hlw : indeg.lookup w = some 0 := lookup_of_mem_nodup h1 hpv
    have hcz : countIn adj w = 0 := by
      have := h4 w ((lookup_isSome_iff indeg w).mp (by simp [hlw]))
      rw [hlw] at this
      simpa using this.symm
    exact absurd hew (no_source_of_countIn_zero hcz u')
  have hord0 : ∀ u' w, hasEdge adj u' w → ∀ m1 m2,
      ([] : List String) = m1 ++ w :: m2 → u' ∈ m2 := by
    intro u' w _ m1 m2 hdec0
    exact absurd hdec0.symm (by simp)
  have hdec' : kahnLoop adj (indeg.length + 1)
      ((indeg.filter (fun p => p.2 == 0)).map Prod.fst) indeg []
      = l1 ++ v :: l2 := hdec
  exact kahnLoop_resp adj (keysOf indeg) h2 h3 (indeg.length + 1)
    ((indeg.filter (fun p => p.2 == 0)).map Prod.fst) indeg []
    (by simpa using hbase0) hcnt0 hq0 hord0 u v he l1 l2 hdec' 

theorem claim_C5_witness :
    ((keysOf (build_graph chainStore).2).Nodup
      ∧ (keysOf (build_graph chainStore).1).Nodup
      ∧ (∀ p ∈ (build_graph chainStore).1, p.2.Nodup)
      ∧ (∀ v ∈ keysOf (build_graph chainStore).2,
          (build_graph chainStore).2.lookup v
            = some (countIn (build_graph chainStore).1 v)))
    ∧ hasEdge (build_graph chainStore).1 "A" "B"
    ∧ "A" ∈ (kahn_topological_sort (build_graph chainStore).1
        (build_graph chainStore).2).1
    ∧ (kahn_topological_sort (build_graph chainStore).1
        (build_graph chainStore).2).1 = ["A"] ++ "B" :: ["C"]
    ∧ "A" ∈ ["A"] :=
  ⟨⟨by decide, by decide, by decide, by decide⟩, by decide, by decide,
    by decide,
    (claim_C5 (build_graph chainStore).1 (build_graph chainStore).2
      (by decide) (by decide) (by decide) (by decide)).1
      "A" "B" ["A"] ["C"] (by decide) (by decide) (by decide)⟩

/-! ## Character lemmas for the normalizer (claim C9) -/

theorem toNat_ofNat_valid {n : Nat} (h : n < 55296) : (Char.ofNat n).toNat = n := by
  rw [Char.ofNat, dif_pos (Or.inl h)]
  rfl

theorem toUpper_of_not_lower {c : Char}
    (h : ¬(c.toNat ≥ 97 ∧ c.toNat ≤ 122)) : c.toUpper = c := by
  unfold Char.toUpper
  rw [if_neg h]

theorem toUpper_toNat_lower {c : Char} (h : c.toNat ≥ 97 ∧ c.toNat ≤ 122) :
    c.toUpper.toNat = c.toNat - 32 := by
  unfold Char.toUpper
  rw [if_pos h]
  exact toNat_ofNat_valid (by omega)

theorem toUpper_idem (c : Char) : c.toUpper.toUpper = c.toUpper := by
  by_cases h : c.toNat ≥ 97 ∧ c.toNat ≤ 122
  · have h1 : c.toUpper.toNat = c.toNat - 32 := toUpper_toNat_lower h
    exact toUpper_of_not_lower (by omega)
  · rw [toUpper_of_not_lower h, toUpper_of_not_lower h]

theorem pyIsSpace_false_of_range {c : Char} (h1 : 65 ≤ c.toNat)
    (h2 : c.toNat ≤ 122) : pyIsSpace c = false := by
  have hne : ∀ d : Char, d.toNat < 65 → (c == d) = false := by
    intro d hd
    apply beq_false_of_ne
    intro he
    rw [he] at h1
    omega
  unfold pyIsSpace
  rw [hne ' ' (by decide), hne '\t' (by decide), hne '\n' (by decide),
    hne '\r' (by decide), hne '\x0b' (by decide), hne '\x0c' (by decide)]
  rfl

theorem pyIsSpace_toUpper (c : Char) : pyIsSpace c.toUpper = pyIsSpace c := by
  by_cases h : c.toNat ≥ 97 ∧ c.toNat ≤ 122
  · have h1 : c.toUpper.toNat = c.toNat - 32 := toUpper_toNat_lower h
    rw [pyIsSpace_false_of_range (c := c.toUpper) (by omega) (by omega),
      pyIsSpace_false_of_range (by omega) (by omega)]
  · rw [toUpper_of_not_lower h]

/-! ## Token/collapse factorisation of the normalizer -/

theorem intercalate_singleton (sep x : List Char) :
    List.intercalate sep [x] = x := by
  simp [List.intercalate]

theorem intercalate_cons_ne (sep x : List Char) {ts : List (List Char)}
    (h : ts ≠ []) :
    List.intercalate sep (x :: ts) = x ++ sep ++ List.intercalate sep ts := by
  cases ts with
  | nil => exact absurd rfl h
  | cons y ys => simp [List.intercalate, List.append_assoc]

/-- No trailing whitespace. -/
def noTrailWs (l : List Char) : Prop :=
  ∀ h : l ≠ [], pyIsSpace (l.getLast h) = false

theorem noTrailWs_nil : noTrailWs [] := fun h => absurd rfl h

theorem noTrailWs_tail {c : Char} {cs : List Char} (h : noTrailWs (c :: cs))
    (hcs : cs ≠ []) : noTrailWs cs := by
  intro h'
  have := h (by simp)
  rwa [List.getLast_cons hcs] at this

/-- A nonempty accumulator always yields at least one token. -/
theorem wsTokensAux_acc_ne_nil :
    ∀ (l acc : List Char), acc ≠ [] → wsTokensAux acc l ≠ [] := by
  intro l
  induction l with
  | nil =>
      intro acc hacc
      have : acc.isEmpty = false := by
        cases acc
        · exact absurd rfl hacc
        · rfl
      simp [wsTokensAux, this]
  | cons c cs ih =>
      intro acc hacc
      have hne : acc.isEmpty = false := by
        cases acc
        · exact absurd rfl hacc
        · rfl
      unfold wsTokensAux
      by_cases hc : pyIsSpace c
      · rw [if_pos hc, hne]
        simp
      · rw [if_neg hc]
        exact ih (c :: acc) (by simp)

/-- A list with a non-whitespace member yields at least one token. -/
theorem wsTokensAux_ne_nil_of_mem :
    ∀ (l : List Char), (∃ d ∈ l, pyIsSpace d = false) →
      wsTokensAux [] l ≠ [] := by
  intro l
  induction l with
  | nil => rintro ⟨d, hd, _⟩; simp at hd
  | cons c cs ih =>
      rintro ⟨d, hd, hdw⟩
      unfold wsTokensAux
      by_cases hc : pyIsSpace c
      · rw [if_pos hc]
        simp only [List.isEmpty_nil, if_true]
        refine ih ⟨d, ?_, hdw⟩
        rcases List.mem_cons.mp hd with rfl | hmem
        · rw [hdw] at hc; exact absurd hc (by simp)
        · exact hmem
      · rw [if_neg hc]
        exact wsTokensAux_acc_ne_nil cs [c] (by simp)

theorem wsTokensAux_nil (acc : List Char) :
    wsTokensAux acc [] = if acc.isEmpty then [] else [acc.reverse] := rfl

theorem wsTokensAux_cons (acc : List Char) (c : Char) (cs : List Char) :
    wsTokensAux acc (c :: cs)
      = if pyIsSpace c then
          (if acc.isEmpty then wsTokensAux [] cs
           else acc.reverse :: wsTokensAux [] cs)
        else wsTokensAux (c :: acc) cs := rfl

theorem collapseWsAux_cons (b : Bool) (c : Char) (cs : List Char) :
    collapseWsAux b (c :: cs)
      = if pyIsSpace c then
          (if b then collapseWsAux true cs else ' ' :: collapseWsAux true cs)
        else c :: collapseWsAux false cs := rfl

/-- Collapsing and tokenising agree: with a pending token `acc` (resp.
none, in whitespace-skipping state), joining the tokens with single
spaces equals whitespace collapsing, for input without trailing
whitespace. -/
theorem tokensJoin :
    ∀ (n : Nat) (l : List Char), l.length ≤ n → noTrailWs l →
      (∀ acc, acc ≠ [] →
        List.intercalate [' '] (wsTokensAux acc l)
          = acc.reverse ++ collapseWsAux false l)
      ∧ List.intercalate [' '] (wsTokensAux [] l) = collapseWsAux true l := by
  have base : ∀ acc : List Char, acc ≠ [] →
      List.intercalate [' '] (wsTokensAux acc [])
        = acc.reverse ++ collapseWsAux false [] := by
    intro acc hacc
    have hne : acc.isEmpty = false := by
      cases acc
      · exact absurd rfl hacc
      · rfl
    rw [wsTokensAux_nil, hne]
    simp [intercalate_singleton, collapseWsAux]
  intro n
  induction n with
  | zero =>
      intro l hlen hnt
      have hl : l = [] := List.length_eq_zero.mp (Nat.le_zero.mp hlen)
      subst hl
      exact ⟨base, by simp [wsTokensAux, collapseWsAux, List.intercalate]⟩
  | succ m ih =>
      intro l hlen hnt
      cases l with
      | nil => exact ⟨base, by simp [wsTokensAux, collapseWsAux, List.intercalate]⟩
      | cons c cs =>
          have hlen' : cs.length ≤ m := by simp at hlen; omega
          by_cases hc : pyIsSpace c = true
          · have hcs_ne : cs ≠ [] := by
              rintro rfl
              have hx := hnt (by simp)
              rw [List.getLast_singleton] at hx
              rw [hx] at hc
              simp at hc
            have hnt' : noTrailWs cs := noTrailWs_tail hnt hcs_ne
            have htne : wsTokensAux [] cs ≠ [] :=
              wsTokensAux_ne_nil_of_mem cs
                ⟨cs.getLast hcs_ne, List.getLast_mem hcs_ne, hnt' hcs_ne⟩
            obtain ⟨ihp1, ihp2⟩ := ih cs hlen' hnt'
            constructor
            · intro acc hacc
              have hne : acc.isEmpty = false := by
                cases acc
                · exact absurd rfl hacc
                · rfl
              have hstep : wsTokensAux acc (c :: cs)
                  = acc.reverse :: wsTokensAux [] cs := by
                rw [wsTokensAux_cons, if_pos hc, hne]
                simp
              have hcol : collapseWsAux false (c :: cs)
                  = ' ' :: collapseWsAux true cs := by
                rw [collapseWsAux_cons, if_pos hc]
                simp
              rw [hstep, intercalate_cons_ne _ _ htne, ihp2, hcol]
              simp
            · have hstep : wsTokensAux [] (c :: cs) = wsTokensAux [] cs := by
                rw [wsTokensAux_cons, if_pos hc]
                simp
              have hcol : collapseWsAux true (c :: cs)
                  = collapseWsAux true cs := by
                rw [collapseWsAux_cons, if_pos hc]
                simp
              rw [hstep, hcol, ihp2]
          · have hnt' : noTrailWs cs := by
              cases hce : cs with
              | nil => exact noTrailWs_nil
              | cons d ds => exact hce ▸ noTrailWs_tail hnt (by simp [hce])
            obtain ⟨ihp1, _⟩ := ih cs hlen' hnt'
            have hpart1 : ∀ acc, acc ≠ [] →
                List.intercalate [' '] (wsTokensAux acc (c :: cs))
                  = acc.reverse ++ collapseWsAux false (c :: cs) := by
              intro acc hacc
              have hstep : wsTokensAux acc (c :: cs)
                  = wsTokensAux (c :: acc) cs := by
                rw [wsTokensAux_cons, if_neg hc]
              have hcol : collapseWsAux false (c :: cs)
                  = c :: collapseWsAux false cs := by
                rw [collapseWsAux_cons, if_neg hc]
              rw [hstep, hcol, ihp1 (c :: acc) (by simp)]
              simp
            refine ⟨hpart1, ?_⟩
            have hstep : wsTokensAux [] (c :: cs) = wsTokensAux [c] cs := by
              rw [wsTokensAux_cons, if_neg hc]
            have hcol : collapseWsAux true (c :: cs)
                = c :: collapseWsAux false cs := by
              rw [collapseWsAux_cons, if_neg hc]
            rw [hstep, hcol, ihp1 [c] (by simp)]
            simp

theorem pyStripL_eq_rdrop (l : List Char) :
    pyStripL l = List.rdropWhile pyIsSpace (l.dropWhile pyIsSpace) := rfl

theorem pyStripL_noTrail (l : List Char) : noTrailWs (pyStripL l) := by
  intro h
  have h2 : ¬ (pyIsSpace ((pyStripL l).getLast h) = true) :=
    List.rdropWhile_last_not (p := pyIsSpace) (l := l.dropWhile pyIsSpace) h
  cases hb : pyIsSpace ((pyStripL l).getLast h)
  · rfl
  · exact absurd hb h2

theorem pyStripL_head_not (l : List Char) {c : Char} {cs : List Char}
    (hm : pyStripL l = c :: cs) : pyIsSpace c = false := by
  obtain ⟨t, ht⟩ := List.rdropWhile_prefix (p := pyIsSpace)
    (l := l.dropWhile pyIsSpace)
  have ht' : (c :: cs) ++ t = l.dropWhile pyIsSpace := by
    rw [← hm]
    exact ht
  have hdw : l.dropWhile pyIsSpace = c :: (cs ++ t) := by
    rw [← ht']
    simp
  have hhead := List.head_dropWhile_not pyIsSpace l (by rw [hdw]; simp)
  have h1 := List.head?_eq_head (l := l.dropWhile pyIsSpace) (by rw [hdw]; simp)
  have h2 : (l.dropWhile pyIsSpace).head? = some c := by rw [hdw]; rfl
  have hc := Option.some.inj (h1.symm.trans h2)
  rwa [hc] at hhead

/-- On stripped input, collapsing equals joining the tokens. -/
theorem collapse_strip_eq_join (l : List Char) :
    collapseWsAux false (pyStripL l)
      = List.intercalate [' '] (wsTokensAux [] (pyStripL l)) := by
  cases hm : pyStripL l with
  | nil => rfl
  | cons c cs =>
      have hc : pyIsSpace c = false := pyStripL_head_not l hm
      have hnt : noTrailWs (c :: cs) := hm ▸ pyStripL_noTrail l
      have hnt' : noTrailWs cs := by
        cases hce : cs with
        | nil => exact noTrailWs_nil
        | cons d ds => exact hce ▸ noTrailWs_tail hnt (by simp [hce])
      obtain ⟨ihp1, _⟩ := tokensJoin cs.length cs (Nat.le_refl _) hnt'
      rw [collapseWsAux_cons, if_neg (by simp [hc]),
        wsTokensAux_cons, if_neg (by simp [hc]), ihp1 [c] (by simp)]
      simp

/-- Leading whitespace does not change the tokens. -/
theorem tokens_dropWhile (l : List Char) :
    wsTokensAux [] (l.dropWhile pyIsSpace) = wsTokensAux [] l := by
  induction l with
  | nil => rfl
  | cons c cs ih =>
      by_cases hc : pyIsSpace c = true
      · rw [List.dropWhile_cons_of_pos hc, ih, wsTokensAux_cons, if_pos hc]
        simp
      · rw [List.dropWhile_cons_of_neg hc]

/-- Tokens of an all-whitespace list, from any accumulator state. -/
theorem tokens_allws :
    ∀ (t : List Char), (∀ d ∈ t, pyIsSpace d = true) →
      ∀ acc, wsTokensAux acc t = if acc.isEmpty then [] else [acc.reverse] := by
  intro t
  induction t with
  | nil => intro _ acc; exact wsTokensAux_nil acc
  | cons d ds ih =>
      intro ht acc
      have hd : pyIsSpace d = true := ht d (by simp)
      have hds : ∀ e ∈ ds, pyIsSpace e = true :=
        fun e he => ht e (List.mem_cons_of_mem _ he)
      have h0 : wsTokensAux [] ds = [] := by
        rw [ih hds []]
        rfl
      rw [wsTokensAux_cons, if_pos hd]
      by_cases hacc : acc.isEmpty = true
      · rw [if_pos hacc, if_pos hacc, h0]
      · rw [if_neg hacc, if_neg hacc, h0]

/-- An all-whitespace run at the end does not change the tokens. -/
theorem tokens_append_allws (t : List Char) (ht : ∀ d ∈ t, pyIsSpace d = true) :
    ∀ (l acc : List Char), wsTokensAux acc (l ++ t) = wsTokensAux acc l := by
  intro l
  induction l with
  | nil =>
      intro acc
      rw [List.nil_append, tokens_allws t ht acc, wsTokensAux_nil]
  | cons c cs ih =>
      intro acc
      rw [List.cons_append, wsTokensAux_cons, wsTokensAux_cons]
      by_cases hc : pyIsSpace c = true
      · rw [if_pos hc, if_pos hc]
        by_cases hacc : acc.isEmpty = true
        · rw [if_pos hacc, if_pos hacc, ih]
        · rw [if_neg hacc, if_neg hacc, ih]
      · rw [if_neg hc, if_neg hc, ih]


/-- Stripping does not change the tokens. -/
theorem tokens_strip (l : List Char) :
    wsTokensAux [] (pyStripL l) = wsTokensAux [] l := by
  have hdecomp : l.dropWhile pyIsSpace
      = pyStripL l ++ ((l.dropWhile pyIsSpace).reverse.takeWhile pyIsSpace).reverse := by
    conv_lhs => rw [← List.reverse_reverse (l.dropWhile pyIsSpace),
      ← List.takeWhile_append_dropWhile (p := pyIsSpace)
        (l := (l.dropWhile pyIsSpace).reverse)]
    rw [List.reverse_append]
    rfl
  have hws : ∀ d ∈ ((l.dropWhile pyIsSpace).reverse.takeWhile pyIsSpace).reverse,
      pyIsSpace d = true := by
    intro d hd
    rw [List.mem_reverse] at hd
    exact List.mem_takeWhile_imp hd
  calc wsTokensAux [] (pyStripL l)
      = wsTokensAux [] (pyStripL l
          ++ ((l.dropWhile pyIsSpace).reverse.takeWhile pyIsSpace).reverse) :=
        (tokens_append_allws _ hws _ _).symm
    _ = wsTokensAux [] (l.dropWhile pyIsSpace) := by rw [← hdecomp]
    _ = wsTokensAux [] l := tokens_dropWhile l

/-- `map Char.toUpper` distributes over joining with single spaces. -/
theorem map_toUpper_intercalate :
    ∀ ts : List (List Char),
      (List.intercalate [' '] ts).map Char.toUpper
        = List.intercalate [' '] (ts.map (List.map Char.toUpper)) := by
  have hsp : Char.toUpper ' ' = ' ' := by decide
  intro ts
  induction ts with
  | nil => rfl
  | cons x ts ih =>
      cases hts : ts with
      | nil => simp [intercalate_singleton]
      | cons y ys =>
          rw [hts] at ih
          have h1 : List.intercalate [' '] (x :: y :: ys)
              = x ++ [' '] ++ List.intercalate [' '] (y :: ys) :=
            intercalate_cons_ne _ _ (by simp)
          have h2 : List.intercalate [' ']
                (x.map Char.toUpper :: (y :: ys).map (List.map Char.toUpper))
              = x.map Char.toUpper ++ [' ']
                ++ List.intercalate [' '] ((y :: ys).map (List.map Char.toUpper)) :=
            intercalate_cons_ne _ _ (by simp)
          calc (List.intercalate [' '] (x :: y :: ys)).map Char.toUpper
              = (x ++ [' '] ++ List.intercalate [' '] (y :: ys)).map Char.toUpper := by
                rw [h1]
            _ = x.map Char.toUpper ++ [' ']
                ++ (List.intercalate [' '] (y :: ys)).map Char.toUpper := by
                simp [hsp]
            _ = x.map Char.toUpper ++ [' ']
                ++ List.intercalate [' '] ((y :: ys).map (List.map Char.toUpper)) := by
                rw [ih]
            _ = List.intercalate [' '] ((x :: y :: ys).map (List.map Char.toUpper)) := by
                rw [show (x :: y :: ys).map (List.map Char.toUpper)
                  = x.map Char.toUpper :: (y :: ys).map (List.map Char.toUpper)
                  from rfl, h2]

/-- The normalizer, factored through upper-cased whitespace tokens. -/
theorem normList_eq_join (l : List Char) :
    normList l = List.intercalate [' ']
      ((wsTokensAux [] l).map (List.map Char.toUpper)) := by
  unfold normList collapseWs
  rw [collapse_strip_eq_join, tokens_strip]
  exact map_toUpper_intercalate _

theorem normalize_eq_join (s : String) :
    normalize_course_code s = ⟨List.intercalate [' '] (tokensUpper s)⟩ := by
  unfold normalize_course_code tokensUpper
  rw [normList_eq_join]

/-- Every produced token is nonempty and whitespace-free. -/
theorem tokens_wsfree :
    ∀ (l acc : List Char), (∀ d ∈ acc, pyIsSpace d = false) →
      ∀ t ∈ wsTokensAux acc l, t ≠ [] ∧ ∀ d ∈ t, pyIsSpace d = false := by
  intro l
  induction l with
  | nil =>
      intro acc hacc t ht
      rw [wsTokensAux_nil] at ht
      by_cases he : acc.isEmpty = true
      · rw [if_pos he] at ht; simp at ht
      · rw [if_neg he] at ht
        simp at ht
        subst ht
        have hacc' : acc ≠ [] := by
          revert he; cases acc <;> simp
        refine ⟨by simpa using hacc', ?_⟩
        intro d hd
        exact hacc d (List.mem_reverse.mp hd)
  | cons c cs ih =>
      intro acc hacc t ht
      rw [wsTokensAux_cons] at ht
      by_cases hc : pyIsSpace c = true
      · rw [if_pos hc] at ht
        by_cases he : acc.isEmpty = true
        · rw [if_pos he] at ht
          exact ih [] (by simp) t ht
        · rw [if_neg he] at ht
          rcases List.mem_cons.mp ht with rfl | ht'
          · have hacc' : acc ≠ [] := by
              revert he; cases acc <;> simp
            refine ⟨by simpa using hacc', ?_⟩
            intro d hd
            exact hacc d (List.mem_reverse.mp hd)
          · exact ih [] (by simp) t ht'
      · rw [if_neg hc] at ht
        refine ih (c :: acc) ?_ t ht
        intro d hd
        rcases List.mem_cons.mp hd with rfl | hd'
        · revert hc; cases pyIsSpace d <;> simp
        · exact hacc d hd'

/-- Scanning a whitespace-free run just extends the accumulator. -/
theorem tokens_wsfree_run :
    ∀ (x : List Char), (∀ d ∈ x, pyIsSpace d = false) →
      ∀ (acc l : List Char),
        wsTokensAux acc (x ++ l) = wsTokensAux (x.reverse ++ acc) l := by
  intro x
  induction x with
  | nil => intro _ acc l; rfl
  | cons c cs ih =>
      intro hx acc l
      have hc : pyIsSpace c = false := hx c (by simp)
      rw [List.cons_append, wsTokensAux_cons, if_neg (by simp [hc])]
      rw [ih (fun d hd => hx d (List.mem_cons_of_mem _ hd)) (c :: acc) l]
      congr 1
      simp

/-- Tokenising a single-space join of nonempty whitespace-free tokens
recovers the tokens. -/
theorem tokens_intercalate :
    ∀ ts : List (List Char),
      (∀ t ∈ ts, t ≠ [] ∧ ∀ d ∈ t, pyIsSpace d = false) →
      wsTokensAux [] (List.intercalate [' '] ts) = ts := by
  intro ts
  induction ts with
  | nil => intro _; rfl
  | cons x ts ih =>
      intro hts
      obtain ⟨hxne, hxw⟩ := hts x (by simp)
      have hxrev : x.reverse.isEmpty = false := by
        cases hr : x.reverse with
        | nil => exact absurd (by simpa using hr) hxne
        | cons d ds => rfl
      cases hcase : ts with
      | nil =>
          rw [intercalate_singleton, ← List.append_nil x,
            tokens_wsfree_run x hxw [] [], wsTokensAux_nil]
          simp [hxrev]
      | cons y ys =>
          subst hcase
          rw [intercalate_cons_ne _ _ (List.cons_ne_nil y ys), List.append_assoc,
            tokens_wsfree_run x hxw [] _, List.append_nil]
          have hsp : pyIsSpace ' ' = true := by decide
          rw [show ([' '] ++ List.intercalate [' '] (y :: ys))
              = ' ' :: List.intercalate [' '] (y :: ys) from rfl]
          rw [wsTokensAux_cons, if_pos hsp, hxrev]
          simp only [Bool.false_eq_true, if_false]
          rw [ih (fun t ht => hts t (List.mem_cons_of_mem _ ht))]
          simp

/-! ## Claim C9 -/

/-- Claim C9: normalization is idempotent, and any two strings with the
same upper-cased whitespace tokens (i.e. differing only in letter case
and in runs of internal or surrounding whitespace) normalize to the same
string; in particular `"  chem  102 "` and `"CHEM 102"` both normalize
to `"CHEM 102"`. -/
theorem claim_C9 :
    (∀ s : String,
      normalize_course_code (normalize_course_code s) = normalize_course_code s)
    ∧ (∀ s t : String, tokensUpper s = tokensUpper t →
        normalize_course_code s = normalize_course_code t)
    ∧ normalize_course_code "  chem  102 " = "CHEM 102"
    ∧ normalize_course_code "CHEM 102" = "CHEM 102" := by
  have hins : ∀ s t : String, tokensUpper s = tokensUpper t →
      normalize_course_code s = normalize_course_code t := by
    intro s t h
    rw [normalize_eq_join, normalize_eq_join, h]
  have hidem : ∀ s : String,
      normalize_course_code (normalize_course_code s)
        = normalize_course_code s := by
    intro s
    apply hins
    have hlist : (normalize_course_code s).toList = normList s.toList := rfl
    have hwf : ∀ t ∈ (wsTokensAux [] s.toList).map (List.map Char.toUpper),
        t ≠ [] ∧ ∀ d ∈ t, pyIsSpace d = false := by
      intro t ht
      obtain ⟨t0, ht0, rfl⟩ := List.mem_map.mp ht
      obtain ⟨h1, h2⟩ := tokens_wsfree s.toList [] (by simp) t0 ht0
      refine ⟨by simpa using h1, ?_⟩
      intro d hd
      obtain ⟨d0, hd0, rfl⟩ := List.mem_map.mp hd
      rw [pyIsSpace_toUpper]
      exact h2 d0 hd0
    unfold tokensUpper
    rw [hlist, normList_eq_join, tokens_intercalate _ hwf, List.map_map]
    apply List.map_congr_left
    intro t0 _
    show List.map Char.toUpper (List.map Char.toUpper t0)
      = List.map Char.toUpper t0
    rw [List.map_map]
    apply List.map_congr_left
    intro c _
    exact toUpper_idem c
  exact ⟨hidem, hins, by decide, by decide⟩

theorem claim_C9_witness :
    tokensUpper "  chem  102 " = tokensUpper "CHEM 102"
    ∧ normalize_course_code "  chem  102 " = normalize_course_code "CHEM 102" :=
  ⟨by decide, claim_C9.2.1 "  chem  102 " "CHEM 102" (by decide)⟩
